import Mathlib

/-!
Verification of the hashline core (content-addressable line hashing for
precise text editing) against its natural-language specification.

The development is a shallow embedding of `src/hashline.ts`.  JavaScript
strings are modelled as lists of characters (`Str`); `charCodeAt` is
modelled by expanding characters to UTF-16 code units.  JavaScript numbers
are IEEE-754 binary64: the hash loop's `hash * 0x01000193` is a binary64
multiplication whose integer product can exceed 2^53 and is therefore
rounded to nearest (ties to even) at 53 significant bits *before* the
`>>> 0` conversion to uint32; the embedding reproduces that rounding
exactly (`rne53`/`jsMul`), rather than taking the exact product mod 2^32.
-/

set_option maxRecDepth 100000

namespace Hashline

/-- JS strings, modelled as lists of Unicode code points. -/
abbrev Str := List Char

/-- Convert a Lean string literal to the JS string model. -/
def lit (s : String) : Str := s.data

deriving instance DecidableEq for Except

/-- The JS whitespace set used by `String.prototype.trim`/`trimEnd` and by
the regex class `\s`: WhiteSpace plus LineTerminator code points. -/
def jsWhite (c : Char) : Bool :=
  c.toNat == 0x20 || c.toNat == 0x9 || c.toNat == 0xa || c.toNat == 0xb ||
  c.toNat == 0xc || c.toNat == 0xd ||
  c.toNat == 0xa0 || c.toNat == 0x1680 ||
  (decide (0x2000 ≤ c.toNat) && decide (c.toNat ≤ 0x200a)) ||
  c.toNat == 0x2028 || c.toNat == 0x2029 || c.toNat == 0x202f || c.toNat == 0x205f ||
  c.toNat == 0x3000 || c.toNat == 0xfeff

/-- The regex class `\d` (`0`-`9`). -/
def isDigitCh (c : Char) : Bool :=
  decide (48 ≤ c.toNat) && decide (c.toNat ≤ 57)

/-- The regex class `[0-9a-f]` (lowercase hex, as in the strip pattern). -/
def isHexLower (c : Char) : Bool :=
  isDigitCh c || (decide (97 ≤ c.toNat) && decide (c.toNat ≤ 102))

/-- The regex class `[0-9a-f]` under the `i` flag: either case of hex letter. -/
def isHexAny (c : Char) : Bool :=
  isHexLower c || (decide (65 ≤ c.toNat) && decide (c.toNat ≤ 70))

/-- The regex class `[#\w]`: `#`, letters, digits and underscore. -/
def isHashWord (c : Char) : Bool :=
  c.toNat == 0x23 || c.toNat == 0x5f || isDigitCh c ||
  (decide (97 ≤ c.toNat) && decide (c.toNat ≤ 122)) ||
  (decide (65 ≤ c.toNat) && decide (c.toNat ≤ 90))

/-- Patch-marker characters tolerated by `stripHashes`: `+`, `-`, space. -/
def markerCh (c : Char) : Bool := c == '+' || c == '-' || c == ' '

/-- Characters matched by the regex `.` metacharacter (no line terminators). -/
def dotCh (c : Char) : Bool :=
  !(c.toNat == 0xa || c.toNat == 0xd || c.toNat == 0x2028 || c.toNat == 0x2029)

/-- Lower-casing of ASCII letters, as applied by `toLowerCase` on hex tags. -/
def lowerCh (c : Char) : Char :=
  if 65 ≤ c.toNat ∧ c.toNat ≤ 90 then Char.ofNat (c.toNat + 32) else c

/-- `trimEnd` on the whole string (used before trailing trim both ends). -/
def jsTrimEnd (s : Str) : Str := (s.reverse.dropWhile jsWhite).reverse

/-- `String.prototype.trim`: drop JS whitespace from both ends. -/
def jsTrim (s : Str) : Str := jsTrimEnd (s.dropWhile jsWhite)

/-- UTF-16 code units of one code point (surrogate pair above U+FFFF),
modelling `charCodeAt`. -/
def codeUnitsOf (c : Char) : List Nat :=
  let n := c.toNat
  if n < 0x10000 then [n]
  else [0xd800 + (n - 0x10000) / 0x400, 0xdc00 + (n - 0x10000) % 0x400]

/-- The UTF-16 code-unit sequence of a string. -/
def codeUnits (s : Str) : List Nat := (s.map codeUnitsOf).flatten

/-- Fuel-driven bit length (`0` for `0`, else `⌊log₂ n⌋ + 1`); the fuel `n`
always suffices since `n ≥ bitLen n`. -/
def bitLenAux : Nat → Nat → Nat
  | 0, _ => 0
  | fuel + 1, n => if n = 0 then 0 else bitLenAux fuel (n / 2) + 1

/-- Bit length of a natural number. -/
def bitLen (n : Nat) : Nat := bitLenAux n n

/-- Round a non-negative integer to the nearest IEEE-754 binary64 value
(53 significant bits, ties to even).  Exact below `2^53`; above, the low
`bitLen n - 53` bits are rounded away. -/
def rne53 (n : Nat) : Nat :=
  let e := bitLen n - 53
  if e = 0 then n
  else
    let u := 2 ^ e
    let q := n / u
    let r := n % u
    if r * 2 < u then q * u
    else if u < r * 2 then (q + 1) * u
    else (if q % 2 = 0 then q else q + 1) * u

/-- JavaScript number multiplication on integer doubles: the exact integer
product, rounded to binary64 (rounding is symmetric in the sign). -/
def jsMul (a b : Int) : Int :=
  let p := a * b
  if 0 ≤ p then (rne53 p.toNat : Int) else -(rne53 (-p).toNat : Int)

/-- `ToInt32`: reinterpret a uint32 bit pattern as a signed 32-bit value
(JS `^` yields an int32, which is what `hash * 0x01000193` multiplies). -/
def toInt32 (n : Nat) : Int :=
  if n < 2147483648 then (n : Int) else (n : Int) - 4294967296

/-- `fnv1aHash`: FNV-1a style 32-bit hash over the code units.  Each step is
`hash = ((hash ^ c) * 0x01000193) >>> 0` in JS: an int32 xor, a binary64
multiply (rounded at 53 bits — the product reaches `2^56`), then `ToUint32`
of the rounded integer. -/
def fnv1aHash (s : Str) : Nat :=
  (codeUnits s).foldl
    (fun h c => ((jsMul (toInt32 (h ^^^ c)) 16777619) % 4294967296).toNat)
    0x811c9dc5

/-- Fuel-driven base-`b` digit rendering (lowercase, matching
`Number.prototype.toString(b)` for naturals). -/
def toBaseAux (b : Nat) : Nat → Nat → Str
  | 0, _ => []
  | fuel + 1, n =>
    if n < b then [Nat.digitChar n]
    else toBaseAux b fuel (n / b) ++ [Nat.digitChar (n % b)]

/-- `n.toString(b)` for a natural `n` (`b` is 10 or 16 here). -/
def toBase (b n : Nat) : Str := toBaseAux b (n + 1) n

/-- `String.prototype.padStart(len, c)`. -/
def padStart (len : Nat) (c : Char) (s : Str) : Str :=
  List.replicate (len - s.length) c ++ s

/-- `parseInt(ds, 10)` on a digit string. -/
def decValue (ds : Str) : Nat := ds.foldl (fun a c => a * 10 + (c.toNat - 48)) 0

/-- `getAdaptiveHashLength`: 3 hex chars for ≤ 4096 lines, else 4. -/
def getAdaptiveHashLength (lineCount : Nat) : Nat :=
  if lineCount ≤ 4096 then 3 else 4

/-- `computeLineHash(idx, line, hashLen)`: hash of `"<idx>:<trimEnd(line)>"`
reduced modulo `16^hashLen`, zero-padded lowercase hex. -/
def computeLineHash (idx : Nat) (line : Str) (hashLen : Nat) : Str :=
  let trimmed := jsTrimEnd line
  let input := toBase 10 idx ++ ':' :: trimmed
  let raw := fnv1aHash input
  let h := raw % 16 ^ hashLen
  padStart hashLen '0' (toBase 16 h)

/-- `content.split("\n")` (never empty; `""` splits to `[""]`). -/
def splitOnCh (c : Char) : Str → List Str
  | [] => [[]]
  | x :: xs =>
    match splitOnCh c xs with
    | [] => [[]]
    | r :: rs => if x = c then [] :: r :: rs else (x :: r) :: rs

/-- `parts.join(sep)`. -/
def joinWith (sep : Str) : List Str → Str
  | [] => []
  | [p] => p
  | p :: q :: ps => p ++ sep ++ joinWith sep (q :: ps)

/-- `content.includes("\r\n")`. -/
def containsCRLF : Str → Bool
  | [] => false
  | [_] => false
  | a :: b :: rest => (a == '\r' && b == '\n') || containsCRLF (b :: rest)

/-- `content.replace(/\r\n/g, "\n")`: left-to-right non-overlapping. -/
def replaceCRLF : Str → Str
  | [] => []
  | [a] => [a]
  | a :: b :: rest =>
    if a = '\r' ∧ b = '\n' then '\n' :: replaceCRLF rest
    else a :: replaceCRLF (b :: rest)

/-- `result.replace(/\n/g, "\r\n")`. -/
def toCRLF : Str → Str
  | [] => []
  | a :: rest => if a = '\n' then '\r' :: '\n' :: toCRLF rest else a :: toCRLF rest

/-- `detectLineEnding`: `"\r\n"` if any CRLF is present, else `"\n"`. -/
def detectLineEnding (content : Str) : Str :=
  if containsCRLF content then ['\r', '\n'] else ['\n']

/-- The internal normalization step `lineEnding === "\r\n" ? content.replace(/\r\n/g, "\n") : content`. -/
def normEol (content : Str) : Str :=
  if containsCRLF content then replaceCRLF content else content

/-- Restore step `lineEnding === "\r\n" ? result.replace(/\n/g, "\r\n") : result`. -/
def restoreEol (crlf : Bool) (s : Str) : Str :=
  if crlf then toCRLF s else s

/-- The `prefix` parameter of the annotator: absent, `false`, or a string. -/
inductive PfxOpt
  | undef
  | off
  | str (s : Str)
deriving DecidableEq

/-- `DEFAULT_PREFIX`. -/
def defaultPfx : Str := lit ("#HL ")

/-- `prefix === undefined ? DEFAULT_PREFIX : (prefix === false ? "" : prefix)`. -/
def effPfxOf : PfxOpt → Str
  | .undef => defaultPfx
  | .off => []
  | .str s => s

/-- Effective hash length in `formatFileWithHashes`/`buildHashMap`:
`hashLen && hashLen >= 3 ? hashLen : getAdaptiveHashLength(lines.length)`. -/
def effLenOf (hashLen : Option Nat) (lineCount : Nat) : Nat :=
  match hashLen with
  | some h => if 3 ≤ h then h else getAdaptiveHashLength lineCount
  | none => getAdaptiveHashLength lineCount

/-- The collision-detection loop of `formatFileWithHashes`: assign each line
its hash at `effLen`; when the hash is already in `seen`, recompute that line
at `min (effLen+1) 8` (and do not record the widened hash in `seen`). -/
def assignHashes (effLen : Nat) : Nat → List Str → List Str → List Str
  | _, _, [] => []
  | idx, seen, l :: ls =>
    let h := computeLineHash idx l effLen
    if h ∈ seen then
      computeLineHash idx l (min (effLen + 1) 8) :: assignHashes effLen (idx + 1) seen ls
    else
      h :: assignHashes effLen (idx + 1) (h :: seen) ls

/-- One emitted line: `<pfx><n>:<hash>|<originalLine>`. -/
def tagLine (pfx : Str) (n : Nat) (h : Str) (line : Str) : Str :=
  pfx ++ (toBase 10 n ++ (':' :: (h ++ ('|' :: line))))

/-- `lines.map((line, idx) => pfx + (idx+1) + ":" + hashes[idx] + "|" + line)`
(the two lists always have equal length at the call site). -/
def tagLines (pfx : Str) : Nat → List Str → List Str → List Str
  | _, [], _ => []
  | _, _ :: _, [] => []
  | n, l :: ls, h :: hs => tagLine pfx n h l :: tagLines pfx (n + 1) ls hs

/-- `formatFileWithHashes(content, hashLen?, prefix?)`. -/
def formatFileWithHashes (content : Str) (hashLen : Option Nat) (pfx : PfxOpt) : Str :=
  let normalized := normEol content
  let lines := splitOnCh '\n' normalized
  let effLen := effLenOf hashLen lines.length
  let hashes := assignHashes effLen 0 [] lines
  joinWith ['\n'] (tagLines (effPfxOf pfx) 1 lines hashes)

/-- Drop the literal (regex-escaped) pattern `pat` from the head of `s`. -/
def dropLit : Str → Str → Option Str
  | [], s => some s
  | _ :: _, [] => none
  | p :: ps, x :: xs => if p = x then dropLit ps xs else none

/-- Match `<pfx>\d+:[0-9a-f]{2,8}\|` at the head of `s` and return the rest
(the strip pattern after the optional patch marker).  `\d+` and the hex run
are forced to be maximal because the characters that follow them in the
pattern (`:`, `|`) are not in the respective classes. -/
def matchTagCore (pfx : Str) (s : Str) : Option Str :=
  match dropLit pfx s with
  | none => none
  | some s1 =>
    if s1.takeWhile isDigitCh = [] then none
    else
      match s1.dropWhile isDigitCh with
      | [] => none
      | c :: s2 =>
        if c = ':' then
          let hs := s2.takeWhile isHexLower
          if 2 ≤ hs.length ∧ hs.length ≤ 8 then
            match s2.dropWhile isHexLower with
            | [] => none
            | d :: s3 => if d = '|' then some s3 else none
          else none
        else none

/-- The marker-present alternative `([+ \-])<pfx>...` of the strip pattern:
consume one patch marker, match the tag after it, keep the marker. -/
def tryMarker (pfx : Str) (line : Str) : Option Str :=
  match line with
  | c :: rest => if markerCh c then (matchTagCore pfx rest).map (fun r => c :: r) else none
  | [] => none

/-- One line of `stripHashes`: apply
`^([+ \-])?<pfx>\d+:[0-9a-f]{2,8}\|`, preserving the patch marker; the
marker-present alternative is tried first, as the regex engine does. -/
def stripLine (pfx : Str) (line : Str) : Str :=
  match tryMarker pfx line with
  | some r => r
  | none =>
    match matchTagCore pfx line with
    | some r => r
    | none => line

/-- `stripHashes(content, prefix?)`. -/
def stripHashes (content : Str) (pfx : PfxOpt) : Str :=
  let p := effPfxOf pfx
  let result := joinWith ['\n'] ((splitOnCh '\n' (normEol content)).map (stripLine p))
  restoreEol (containsCRLF content) result

/-- The four `HashEditOperation`s. -/
inductive HashEditOperation
  | replace
  | delete
  | insert_before
  | insert_after
deriving DecidableEq

/-- Outcome of `verifyHash` (the `VerifyHashResult` shape). -/
inductive VerifyOutcome
  | valid
  | outOfRange (lineNumber lineCount : Nat)
  | mismatch (expected actual : Str)
deriving DecidableEq

/-- The error taxonomy raised by the reference/range/edit functions. -/
inductive HashErr
  | invalidRef (ref : Str)
  | invalidRange (startLine endLine : Nat)
  | startRefInvalid (why : VerifyOutcome)
  | endRefInvalid (why : VerifyOutcome)
  | missingReplacement (op : HashEditOperation)
deriving DecidableEq

/-- `parseHashRef(ref)`: exactly `^(\d+):([0-9a-f]{2,8})$`. -/
def parseHashRef (ref : Str) : Except HashErr (Nat × Str) :=
  let ds := ref.takeWhile isDigitCh
  match ref.dropWhile isDigitCh with
  | [] => .error (.invalidRef ref)
  | c :: hs =>
    if c = ':' ∧ ds ≠ [] ∧ hs.all isHexLower ∧ 2 ≤ hs.length ∧ hs.length ≤ 8 then
      .ok (decValue ds, hs)
    else .error (.invalidRef ref)

/-- Match `(\d+):([0-9a-fA-F]{2,8})\|.*$` at the head of `t`
(the `.*$` part forbids line terminators in the tail). -/
def matchRefTail (t : Str) : Option (Nat × Str) :=
  let ds := t.takeWhile isDigitCh
  if ds = [] then none
  else
    match t.dropWhile isDigitCh with
    | [] => none
    | c :: s2 =>
      if c = ':' then
        let hs := s2.takeWhile isHexAny
        if 2 ≤ hs.length ∧ hs.length ≤ 8 then
          match s2.dropWhile isHexAny with
          | [] => none
          | d :: tail => if d = '|' ∧ tail.all dotCh then some (decValue ds, hs) else none
        else none
      else none

/-- `normalizeHashRef(ref)`: trim, then try the plain pattern
`/^(\d+):([0-9a-f]{2,8})$/i`, then the annotated pattern
`/^(?:[#\w]*\s+)?(\d+):([0-9a-f]{2,8})\|.*$/i`; the optional group is forced
to consume the maximal `[#\w]` run followed by the maximal `\s` run (any
shorter split puts a non-`\s` character under `\s+` or a non-digit under
`\d+`), so the engine's backtracking is deterministic. -/
def normalizeHashRef (ref : Str) : Except HashErr Str :=
  let t := jsTrim ref
  let ds := t.takeWhile isDigitCh
  let plainTry : Option (Nat × Str) :=
    match t.dropWhile isDigitCh with
    | [] => none
    | c :: hs =>
      if c = ':' ∧ ds ≠ [] ∧ hs.all isHexAny ∧ 2 ≤ hs.length ∧ hs.length ≤ 8 then
        some (decValue ds, hs)
      else none
  match plainTry with
  | some (n, hs) => .ok (toBase 10 n ++ ':' :: hs.map lowerCh)
  | none =>
    let afterWord := t.dropWhile isHashWord
    let groupTry : Option (Nat × Str) :=
      if afterWord.takeWhile jsWhite ≠ [] then
        matchRefTail (afterWord.dropWhile jsWhite)
      else none
    match groupTry with
    | some (n, hs) => .ok (toBase 10 n ++ ':' :: hs.map lowerCh)
    | none =>
      match matchRefTail t with
      | some (n, hs) => .ok (toBase 10 n ++ ':' :: hs.map lowerCh)
      | none => .error (.invalidRef ref)

/-- `verifyHash(lineNumber, hash, currentContent, hashLen?, lines?)`. -/
def verifyHash (lineNumber : Nat) (hash : Str) (currentContent : Str)
    (hashLen : Option Nat) (lines : Option (List Str)) : VerifyOutcome :=
  let contentLines := lines.getD (splitOnCh '\n' currentContent)
  let effLen :=
    match hashLen with
    | some h => if 2 ≤ h then h else hash.length
    | none => hash.length
  if lineNumber < 1 ∨ contentLines.length < lineNumber then
    .outOfRange lineNumber contentLines.length
  else
    let actual := computeLineHash (lineNumber - 1) (contentLines.getD (lineNumber - 1) []) effLen
    if actual = hash then .valid else .mismatch hash actual

/-- The `ResolvedRange` shape. -/
structure ResolvedRange where
  startLine : Nat
  endLine : Nat
  lines : List Str
  content : Str
deriving DecidableEq

/-- `resolveRange(startRef, endRef, content, hashLen?)`. -/
def resolveRange (startRef endRef : Str) (content : Str) (hashLen : Option Nat) :
    Except HashErr ResolvedRange := do
  let s ← parseHashRef startRef
  let e ← parseHashRef endRef
  if s.1 > e.1 then throw (.invalidRange s.1 e.1) else
  let crlf := containsCRLF content    -- `detectLineEnding(content)`
  let normalized := normEol content
  let lines := splitOnCh '\n' normalized
  match verifyHash s.1 s.2 normalized hashLen (some lines) with
  | .valid =>
    match verifyHash e.1 e.2 normalized hashLen (some lines) with
    | .valid =>
      let rangeLines := (lines.drop (s.1 - 1)).take (e.1 - (s.1 - 1))
      pure ⟨s.1, e.1, rangeLines, joinWith (if crlf then ['\r', '\n'] else ['\n']) rangeLines⟩
    | why => throw (.endRefInvalid why)
  | why => throw (.startRefInvalid why)

/-- The `HashEditInput` shape. -/
structure HashEditInput where
  operation : HashEditOperation
  startRef : Str
  endRef : Option Str := none
  replacement : Option Str := none
deriving DecidableEq

/-- The `HashEditResult` shape. -/
structure HashEditResult where
  operation : HashEditOperation
  startLine : Nat
  endLine : Nat
  content : Str
deriving DecidableEq

/-- `applyHashEdit(input, content, hashLen?)`. -/
def applyHashEdit (input : HashEditInput) (content : Str) (hashLen : Option Nat) :
    Except HashErr HashEditResult := do
  let crlf := containsCRLF content    -- `detectLineEnding(content) === "\r\n"`
  let workContent := normEol content
  let nStart ← normalizeHashRef input.startRef
  let s ← parseHashRef nStart
  let lines := splitOnCh '\n' workContent
  match verifyHash s.1 s.2 workContent hashLen (some lines) with
  | .valid =>
    if input.operation = .insert_before ∨ input.operation = .insert_after then
      match input.replacement with
      | none => throw (.missingReplacement input.operation)
      | some repl =>
        let insertionLines := splitOnCh '\n' repl
        let insertIndex := if input.operation = .insert_before then s.1 - 1 else s.1
        let next := joinWith ['\n']
          (lines.take insertIndex ++ insertionLines ++ lines.drop insertIndex)
        pure ⟨input.operation, s.1, s.1, restoreEol crlf next⟩
    else
      let nEnd ← normalizeHashRef (input.endRef.getD input.startRef)
      let e ← parseHashRef nEnd
      if s.1 > e.1 then throw (.invalidRange s.1 e.1) else
      match verifyHash e.1 e.2 workContent hashLen (some lines) with
      | .valid =>
        let repl? := if input.operation = .delete then some ([] : Str) else input.replacement
        match repl? with
        | none => throw (.missingReplacement input.operation)
        | some repl =>
          let replacementLines :=
            if input.operation = .delete then ([] : List Str) else splitOnCh '\n' repl
          let next := joinWith ['\n']
            (lines.take (s.1 - 1) ++ replacementLines ++ lines.drop e.1)
          pure ⟨input.operation, s.1, e.1, restoreEol crlf next⟩
      | why => throw (.endRefInvalid why)
  | why => throw (.startRefInvalid why)

/-- A cache entry: whole-content fingerprint plus the annotated text. -/
structure CacheEntry where
  contentHash : Nat
  annotated : Str
deriving DecidableEq

/-- `HashlineCache`: a JS `Map` in insertion order plus the capacity. -/
structure HashlineCache where
  entries : List (Str × CacheEntry)
  maxSize : Nat
deriving DecidableEq

/-- `Map.delete(k)` (keys are unique in every reachable state). -/
def eraseKey (k : Str) (l : List (Str × CacheEntry)) : List (Str × CacheEntry) :=
  l.filter (fun e => e.1 != k)

/-- `HashlineCache.get(filePath, content)`: returns the hit (or `null`) and
the updated cache (fingerprint mismatch evicts; a hit is promoted to
most-recently-used). -/
def HashlineCache.get (c : HashlineCache) (filePath content : Str) :
    Option Str × HashlineCache :=
  match c.entries.find? (fun e => e.1 == filePath) with
  | none => (none, c)
  | some kv =>
    if kv.2.contentHash ≠ fnv1aHash content then
      (none, ⟨eraseKey filePath c.entries, c.maxSize⟩)
    else
      (some kv.2.annotated, ⟨eraseKey filePath c.entries ++ [(filePath, kv.2)], c.maxSize⟩)

/-- `HashlineCache.set(filePath, content, annotated)`: delete an existing
entry for the key, evict the oldest entry at capacity, then append. -/
def HashlineCache.set (c : HashlineCache) (filePath content annotated : Str) :
    HashlineCache :=
  let e1 := if c.entries.any (fun e => e.1 == filePath) then eraseKey filePath c.entries
            else c.entries
  let e2 := if c.maxSize ≤ e1.length then e1.tail else e1
  ⟨e2 ++ [(filePath, ⟨fnv1aHash content, annotated⟩)], c.maxSize⟩

/-- No piece other than the last one ends in a carriage return (the shape of
`content.split("\n")` for CRLF-free content; used to reason about when a
LF-join can create a CRLF pair). -/
def noTrailCR : List Str → Bool
  | [] => true
  | [_] => true
  | p :: q :: ps => (p.getLast? != some '\r') && noTrailCR (q :: ps)

/-! ### Generic list parsing lemmas -/

theorem takeWhile_run {α} (p : α → Bool) (xs : List α) (y : α) (ys : List α)
    (hxs : ∀ a ∈ xs, p a = true) (hy : p y = false) :
    (xs ++ y :: ys).takeWhile p = xs := by
  induction xs with
  | nil => simp [List.takeWhile_cons, hy]
  | cons a xs ih =>
    have ha := hxs a (List.mem_cons_self a xs)
    rw [List.cons_append, List.takeWhile_cons, ha]
    simp only [ite_true]
    rw [ih (fun b hb => hxs b (List.mem_cons_of_mem _ hb))]

theorem dropWhile_run {α} (p : α → Bool) (xs : List α) (y : α) (ys : List α)
    (hxs : ∀ a ∈ xs, p a = true) (hy : p y = false) :
    (xs ++ y :: ys).dropWhile p = y :: ys := by
  induction xs with
  | nil => simp [List.dropWhile_cons, hy]
  | cons a xs ih =>
    have ha := hxs a (List.mem_cons_self a xs)
    rw [List.cons_append, List.dropWhile_cons, ha]
    simp only [ite_true]
    exact ih (fun b hb => hxs b (List.mem_cons_of_mem _ hb))

theorem dropWhile_append_stop {α} (p : α → Bool) (xs : List α) (y : α) (ys : List α)
    (hy : p y = false) :
    (xs ++ y :: ys).dropWhile p = xs.dropWhile p ++ y :: ys := by
  induction xs with
  | nil => simp [List.dropWhile_cons, hy]
  | cons a xs ih =>
    by_cases ha : p a = true
    · rw [List.cons_append, List.dropWhile_cons, ha]
      simpa [List.dropWhile_cons, ha] using ih
    · have ha' : p a = false := by revert ha; cases p a <;> simp
      simp [List.dropWhile_cons, ha']

theorem dropLit_self (p s : Str) : dropLit p (p ++ s) = some s := by
  induction p with
  | nil => rfl
  | cons c p ih => simp [dropLit, ih]

theorem dropLit_shift {c : Char} {q s r : Str}
    (h : dropLit (c :: q) (q ++ s) = some r) : ∃ s', s = c :: s' := by
  induction q generalizing r with
  | nil =>
    cases s with
    | nil => simp [dropLit] at h
    | cons x xs =>
      by_cases hx : c = x
      · exact ⟨xs, by rw [hx]⟩
      · simp [dropLit, hx] at h
  | cons d q' ih =>
    by_cases hd : c = d
    · subst hd
      simp only [List.cons_append, dropLit, if_pos rfl] at h
      exact ih h
    · simp [dropLit, hd] at h

/-! ### Character class facts -/

theorem digitChar_isDigit : ∀ d, d < 10 → isDigitCh (Nat.digitChar d) = true := by decide

theorem digitChar_isHexLower : ∀ d, d < 16 → isHexLower (Nat.digitChar d) = true := by decide

theorem digitChar_not_marker : ∀ d, d < 10 → markerCh (Nat.digitChar d) = false := by decide

theorem digitChar_toNat : ∀ d, d < 10 → (Nat.digitChar d).toNat = d + 48 := by decide

/-! ### `toBase`, `decValue`, `padStart` -/

theorem toBaseAux_mem {b : Nat} (hb : 0 < b) :
    ∀ fuel n c, c ∈ toBaseAux b fuel n → ∃ d, d < b ∧ c = Nat.digitChar d := by
  intro fuel
  induction fuel with
  | zero => intro n c hc; simp [toBaseAux] at hc
  | succ fuel ih =>
    intro n c hc
    rw [toBaseAux] at hc
    by_cases hn : n < b
    · rw [if_pos hn] at hc
      simp at hc
      exact ⟨n, hn, hc⟩
    · rw [if_neg hn] at hc
      rcases List.mem_append.1 hc with h1 | h2
      · exact ih _ c h1
      · simp at h2
        exact ⟨n % b, Nat.mod_lt _ hb, h2⟩

theorem toBase_ne_nil (b n : Nat) : toBase b n ≠ [] := by
  rw [toBase, toBaseAux]
  by_cases hn : n < b
  · simp [hn]
  · simp [hn]

theorem toBaseAux_len {b : Nat} (hb : 2 ≤ b) :
    ∀ fuel n k, 1 ≤ k → n < b ^ k → (toBaseAux b fuel n).length ≤ k := by
  intro fuel
  induction fuel with
  | zero => intro n k _ _; simp [toBaseAux]
  | succ fuel ih =>
    intro n k hk hnk
    rw [toBaseAux]
    by_cases hn : n < b
    · rw [if_pos hn]; simpa using hk
    · rw [if_neg hn]
      have hk2 : 2 ≤ k := by
        by_contra hlt
        interval_cases k
        · simp [pow_succ, pow_zero] at hnk
          omega
      have hdiv : n / b < b ^ (k - 1) := by
        rw [Nat.div_lt_iff_lt_mul (by omega : 0 < b)]
        calc n < b ^ k := hnk
        _ = b ^ (k - 1) * b := by
              rw [← pow_succ]
              congr 1
              omega
      have := ih (n / b) (k - 1) (by omega) hdiv
      simp only [List.length_append, List.length_cons, List.length_nil]
      omega

theorem toBase_len {b n k : Nat} (hb : 2 ≤ b) (hk : 1 ≤ k) (h : n < b ^ k) :
    (toBase b n).length ≤ k :=
  toBaseAux_len hb _ n k hk h

theorem decValue_append_one (ds : Str) (c : Char) :
    decValue (ds ++ [c]) = decValue ds * 10 + (c.toNat - 48) := by
  simp [decValue, List.foldl_append]

theorem decValue_toBaseAux : ∀ fuel n, n < fuel → decValue (toBaseAux 10 fuel n) = n := by
  intro fuel
  induction fuel with
  | zero => intro n h; omega
  | succ fuel ih =>
    intro n h
    rw [toBaseAux]
    by_cases hn : n < 10
    · rw [if_pos hn]
      have := digitChar_toNat n hn
      simp [decValue, this]
    · rw [if_neg hn]
      rw [decValue_append_one]
      have h1 : n / 10 < fuel := by
        have : n / 10 < n := Nat.div_lt_self (by omega) (by omega)
        omega
      rw [ih _ h1]
      have h2 := digitChar_toNat (n % 10) (Nat.mod_lt _ (by omega))
      rw [h2]
      omega

theorem decValue_toBase (n : Nat) : decValue (toBase 10 n) = n :=
  decValue_toBaseAux (n + 1) n (Nat.lt_succ_self n)

theorem toBase_all_digits (n : Nat) : ∀ c ∈ toBase 10 n, isDigitCh c = true := by
  intro c hc
  obtain ⟨d, hd, rfl⟩ := toBaseAux_mem (by omega) _ n c hc
  exact digitChar_isDigit d hd

theorem toBase16_all_hex (n : Nat) : ∀ c ∈ toBase 16 n, isHexLower c = true := by
  intro c hc
  obtain ⟨d, hd, rfl⟩ := toBaseAux_mem (by omega) _ n c hc
  exact digitChar_isHexLower d hd

/-! ### `computeLineHash` shape -/

theorem padStart_length (len : Nat) (c : Char) (s : Str) (h : s.length ≤ len) :
    (padStart len c s).length = len := by
  simp [padStart]
  omega

theorem computeLineHash_length (idx : Nat) (line : Str) (L : Nat) (hL : 1 ≤ L) :
    (computeLineHash idx line L).length = L := by
  rw [computeLineHash]
  apply padStart_length
  apply toBase_len (by omega) hL
  exact Nat.mod_lt _ (Nat.pos_pow_of_pos L (by omega))

theorem computeLineHash_hex (idx : Nat) (line : Str) (L : Nat) :
    ∀ c ∈ computeLineHash idx line L, isHexLower c = true := by
  intro c hc
  rw [computeLineHash, padStart] at hc
  rcases List.mem_append.1 hc with h1 | h2
  · rw [List.eq_of_mem_replicate h1]; decide
  · exact toBase16_all_hex _ c h2

/-! ### `splitOnCh` / `joinWith` -/

theorem splitOnCh_cons_eq (c x : Char) (xs : Str) (r : Str) (rs : List Str)
    (h : splitOnCh c xs = r :: rs) :
    splitOnCh c (x :: xs) = if x = c then [] :: r :: rs else (x :: r) :: rs := by
  rw [splitOnCh, h]

theorem splitOnCh_ne_nil (c : Char) (s : Str) : splitOnCh c s ≠ [] := by
  cases s with
  | nil => simp [splitOnCh]
  | cons x xs =>
    rw [splitOnCh]
    cases h : splitOnCh c xs with
    | nil => simp
    | cons r rs => by_cases hx : x = c <;> simp [hx]

theorem splitOnCh_not_mem (c : Char) (s : Str) : ∀ p ∈ splitOnCh c s, c ∉ p := by
  induction s with
  | nil =>
    intro p hp
    simp [splitOnCh] at hp
    simp [hp]
  | cons x xs ih =>
    intro p hp
    cases h : splitOnCh c xs with
    | nil => exact absurd h (splitOnCh_ne_nil c xs)
    | cons r rs =>
      rw [splitOnCh_cons_eq c x xs r rs h] at hp
      by_cases hx : x = c
      · rw [if_pos hx] at hp
        rcases List.mem_cons.1 hp with h1 | h2
        · simp [h1]
        · exact ih p (h ▸ h2)
      · rw [if_neg hx] at hp
        rcases List.mem_cons.1 hp with h1 | h2
        · subst h1
          intro hc
          rcases List.mem_cons.1 hc with h3 | h4
          · exact hx h3.symm
          · exact ih r (h ▸ List.mem_cons_self r rs) h4
        · exact ih p (h ▸ List.mem_cons_of_mem r h2)

theorem joinWith_cons (sep : Str) (p : Str) (ps : List Str) (h : ps ≠ []) :
    joinWith sep (p :: ps) = p ++ sep ++ joinWith sep ps := by
  cases ps with
  | nil => exact absurd rfl h
  | cons q ps' => rfl

theorem joinWith_splitOnCh (c : Char) (s : Str) : joinWith [c] (splitOnCh c s) = s := by
  induction s with
  | nil => rfl
  | cons x xs ih =>
    cases h : splitOnCh c xs with
    | nil => exact absurd h (splitOnCh_ne_nil c xs)
    | cons r rs =>
      rw [splitOnCh_cons_eq c x xs r rs h]
      rw [h] at ih
      by_cases hx : x = c
      · rw [if_pos hx]
        rw [joinWith_cons _ _ _ (by simp)]
        simp [ih, hx]
      · rw [if_neg hx]
        cases rs with
        | nil =>
          simp only [joinWith] at ih ⊢
          rw [ih]
        | cons r2 rs2 =>
          rw [joinWith_cons _ _ _ (by simp)] at ih
          rw [joinWith_cons _ _ _ (by simp)]
          rw [← ih]
          simp

theorem splitOnCh_of_not_mem {c : Char} {p : Str} (h : c ∉ p) : splitOnCh c p = [p] := by
  induction p with
  | nil => rfl
  | cons x xs ih =>
    have hx : x ≠ c := fun e => h (by simp [e])
    have hxs : c ∉ xs := fun m => h (List.mem_cons_of_mem _ m)
    rw [splitOnCh_cons_eq c x xs xs [] (ih hxs)]
    simp [hx]

theorem splitOnCh_append_cons {c : Char} {p : Str} (t : Str) (h : c ∉ p) :
    splitOnCh c (p ++ c :: t) = p :: splitOnCh c t := by
  induction p with
  | nil =>
    rw [List.nil_append]
    cases ht : splitOnCh c t with
    | nil => exact absurd ht (splitOnCh_ne_nil c t)
    | cons r rs =>
      rw [splitOnCh_cons_eq c c t r rs ht, if_pos rfl]
  | cons a p' ih =>
    have ha : a ≠ c := fun e => h (by simp [e])
    have hp' : c ∉ p' := fun m => h (List.mem_cons_of_mem _ m)
    rw [List.cons_append]
    cases hps : splitOnCh c (p' ++ c :: t) with
    | nil => exact absurd hps (splitOnCh_ne_nil c _)
    | cons r rs =>
      rw [splitOnCh_cons_eq c a _ r rs hps, if_neg ha]
      rw [ih hp'] at hps
      rw [List.cons.injEq] at hps
      rw [hps.1, hps.2]

theorem splitOnCh_joinWith (c : Char) (ps : List Str) (hne : ps ≠ [])
    (h : ∀ p ∈ ps, c ∉ p) : splitOnCh c (joinWith [c] ps) = ps := by
  induction ps with
  | nil => exact absurd rfl hne
  | cons p ps' ih =>
    cases ps' with
    | nil => exact splitOnCh_of_not_mem (h p (List.mem_cons_self p []))
    | cons q ps'' =>
      rw [joinWith_cons _ _ _ (by simp), List.append_assoc, List.singleton_append]
      rw [splitOnCh_append_cons _ (h p (List.mem_cons_self p _))]
      rw [ih (by simp) (fun p' hp' => h p' (List.mem_cons_of_mem _ hp'))]

theorem splitOnCh_head_nil {c x : Char} {xs : Str} {t : List Str}
    (h : splitOnCh c (x :: xs) = [] :: t) : x = c := by
  cases hs : splitOnCh c xs with
  | nil => exact absurd hs (splitOnCh_ne_nil c xs)
  | cons r rs =>
    rw [splitOnCh_cons_eq c x xs r rs hs] at h
    by_cases hx : x = c
    · exact hx
    · rw [if_neg hx] at h
      simp at h

/-! ### CRLF presence -/

theorem containsCRLF_tail {a : Char} {l : Str} (h : containsCRLF (a :: l) = false) :
    containsCRLF l = false := by
  cases l with
  | nil => rfl
  | cons b r =>
    rw [containsCRLF] at h
    simp only [Bool.or_eq_false_iff] at h
    exact h.2

theorem containsCRLF_pair {a b : Char} {l : Str} (h : containsCRLF (a :: b :: l) = false) :
    ¬(a = '\r' ∧ b = '\n') := by
  rw [containsCRLF] at h
  simp only [Bool.or_eq_false_iff, Bool.and_eq_false_iff, beq_eq_false_iff_ne, ne_eq] at h
  intro hab
  rcases h.1 with h1 | h1
  · exact h1 hab.1
  · exact h1 hab.2

theorem noLF_noCRLF {l : Str} (h : '\n' ∉ l) : containsCRLF l = false := by
  induction l with
  | nil => rfl
  | cons a l ih =>
    cases l with
    | nil => rfl
    | cons b r =>
      rw [containsCRLF]
      have hb : b ≠ '\n' := fun e => h (by simp [e])
      have hr : containsCRLF (b :: r) = false :=
        ih (fun m => h (List.mem_cons_of_mem _ m))
      simp [hr, hb]

theorem containsCRLF_cons_of {a : Char} {l : Str} (ha : a ≠ '\r')
    (h : containsCRLF l = false) : containsCRLF (a :: l) = false := by
  cases l with
  | nil => rfl
  | cons b r =>
    rw [containsCRLF]
    simp [ha, h]

theorem containsCRLF_cons₂ {a b : Char} {l : Str} (hab : ¬(a = '\r' ∧ b = '\n'))
    (h : containsCRLF (b :: l) = false) : containsCRLF (a :: b :: l) = false := by
  rw [containsCRLF]
  simp only [h, Bool.or_false, Bool.and_eq_false_iff, beq_eq_false_iff_ne, ne_eq]
  by_cases ha : a = '\r'
  · right; exact fun hb => hab ⟨ha, hb⟩
  · left; exact ha

theorem append_lf_noCRLF (xs ys : Str) (hx : '\n' ∉ xs)
    (hlast : xs.getLast? ≠ some '\r') (hy : containsCRLF ys = false) :
    containsCRLF (xs ++ '\n' :: ys) = false := by
  induction xs with
  | nil =>
    simp only [List.nil_append]
    exact containsCRLF_cons_of (by decide) hy
  | cons x xs' ih =>
    cases xs' with
    | nil =>
      have hx' : x ≠ '\r' := by simpa using hlast
      rw [List.cons_append, List.nil_append]
      exact containsCRLF_cons_of hx' (containsCRLF_cons_of (by decide) hy)
    | cons z zs =>
      rw [List.cons_append, List.cons_append]
      apply containsCRLF_cons₂
      · rintro ⟨-, hz⟩
        exact hx (by simp [hz])
      · rw [← List.cons_append]
        apply ih
        · exact fun m => hx (List.mem_cons_of_mem _ m)
        · rwa [List.getLast?_cons_cons] at hlast

/-- For CRLF-free content, no non-final line of `split("\n")` ends in
`'\r'`. -/
theorem splitOnCh_noTrailCR {s : Str} (h : containsCRLF s = false) :
    noTrailCR (splitOnCh '\n' s) = true := by
  induction s with
  | nil => rfl
  | cons a s' ih =>
    cases hs : splitOnCh '\n' s' with
    | nil => exact absurd hs (splitOnCh_ne_nil '\n' s')
    | cons r rs =>
      rw [splitOnCh_cons_eq '\n' a s' r rs hs]
      have ih' : noTrailCR (r :: rs) = true := hs ▸ ih (containsCRLF_tail h)
      by_cases ha : a = '\n'
      · rw [if_pos ha, noTrailCR]
        simp [ih']
      · rw [if_neg ha]
        cases rs with
        | nil => rfl
        | cons r1 rs1 =>
          rw [noTrailCR] at ih' ⊢
          simp only [Bool.and_eq_true, bne_iff_ne, ne_eq] at ih' ⊢
          refine ⟨?_, ih'.2⟩
          cases r with
          | nil =>
            -- first piece of `split s'` is empty and is not last: s' starts with '\n'
            cases s' with
            | nil => simp [splitOnCh] at hs
            | cons b t =>
              have hb : b = '\n' := splitOnCh_head_nil hs
              have : ¬(a = '\r' ∧ b = '\n') := containsCRLF_pair h
              simp only [List.getLast?_singleton, Option.some_inj]
              intro har
              exact this ⟨har, hb⟩
          | cons r0 rr =>
            rw [List.getLast?_cons_cons]
            exact ih'.1

/-! ### Character class consequences -/

theorem char_ne_of_toNat_ne {c d : Char} (h : c.toNat ≠ d.toNat) : c ≠ d :=
  fun e => h (by rw [e])

theorem isHexLower_bounds {c : Char} (h : isHexLower c = true) :
    (48 ≤ c.toNat ∧ c.toNat ≤ 57) ∨ (97 ≤ c.toNat ∧ c.toNat ≤ 102) := by
  simp [isHexLower, isDigitCh] at h
  tauto

theorem isDigitCh_bounds {c : Char} (h : isDigitCh c = true) :
    48 ≤ c.toNat ∧ c.toNat ≤ 57 := by
  simpa [isDigitCh] using h

theorem isHexLower_ne_lf {c : Char} (h : isHexLower c = true) : c ≠ '\n' := by
  apply char_ne_of_toNat_ne
  rcases isHexLower_bounds h with h1 | h1 <;> (show c.toNat ≠ 10; omega)

theorem isDigitCh_ne_lf {c : Char} (h : isDigitCh c = true) : c ≠ '\n' := by
  apply char_ne_of_toNat_ne
  have := isDigitCh_bounds h
  show c.toNat ≠ 10
  omega

/-! ### Stripping a formatted line -/

theorem matchTagCore_tag (pfx : Str) (n : Nat) (h line : Str)
    (hhex : ∀ c ∈ h, isHexLower c = true) (h2 : 2 ≤ h.length) (h8 : h.length ≤ 8) :
    matchTagCore pfx (tagLine pfx n h line) = some line := by
  have hds : (toBase 10 n ++ ':' :: (h ++ '|' :: line)).takeWhile isDigitCh = toBase 10 n :=
    takeWhile_run _ _ _ _ (toBase_all_digits n) (by decide)
  have hds' : (toBase 10 n ++ ':' :: (h ++ '|' :: line)).dropWhile isDigitCh
      = ':' :: (h ++ '|' :: line) :=
    dropWhile_run _ _ _ _ (toBase_all_digits n) (by decide)
  have hhx : (h ++ '|' :: line).takeWhile isHexLower = h :=
    takeWhile_run _ _ _ _ hhex (by decide)
  have hhx' : (h ++ '|' :: line).dropWhile isHexLower = '|' :: line :=
    dropWhile_run _ _ _ _ hhex (by decide)
  have hdl : dropLit pfx (tagLine pfx n h line)
      = some (toBase 10 n ++ ':' :: (h ++ '|' :: line)) := by
    rw [tagLine]
    exact dropLit_self pfx _
  rw [matchTagCore, hdl]
  simp only [hds, hds', hhx, hhx']
  rw [if_neg (toBase_ne_nil 10 n)]
  simp [h2, h8]

theorem matchTagCore_marker_fail (c : Char) (q : Str) (n : Nat) (h line : Str)
    (hc : markerCh c = true) :
    matchTagCore (c :: q) (q ++ (toBase 10 n ++ (':' :: (h ++ ('|' :: line))))) = none := by
  rw [matchTagCore]
  cases hd : dropLit (c :: q) (q ++ (toBase 10 n ++ (':' :: (h ++ ('|' :: line))))) with
  | none => rfl
  | some r =>
    exfalso
    obtain ⟨s', hs'⟩ := dropLit_shift hd
    have hne := toBase_ne_nil 10 n
    cases ht : toBase 10 n with
    | nil => exact hne ht
    | cons d0 ds =>
      rw [ht, List.cons_append, List.cons.injEq] at hs'
      have hd0 : d0 ∈ toBase 10 n := ht ▸ List.mem_cons_self d0 ds
      obtain ⟨d, hdlt, rfl⟩ := toBaseAux_mem (by omega) _ n d0 hd0
      rw [← hs'.1] at hc
      rw [digitChar_not_marker d hdlt] at hc
      exact Bool.false_ne_true hc

theorem stripLine_tag (pfx : Str) (n : Nat) (h line : Str)
    (hhex : ∀ c ∈ h, isHexLower c = true) (h2 : 2 ≤ h.length) (h8 : h.length ≤ 8) :
    stripLine pfx (tagLine pfx n h line) = line := by
  have hmain := matchTagCore_tag pfx n h line hhex h2 h8
  have hmarker : tryMarker pfx (tagLine pfx n h line) = none := by
    cases pfx with
    | nil =>
      have hne := toBase_ne_nil 10 n
      cases ht : toBase 10 n with
      | nil => exact absurd ht hne
      | cons d0 ds =>
        have hd0 : d0 ∈ toBase 10 n := ht ▸ List.mem_cons_self d0 ds
        obtain ⟨d, hdlt, hdc⟩ := toBaseAux_mem (by omega) _ n d0 hd0
        have hmk : markerCh d0 = false := hdc ▸ digitChar_not_marker d hdlt
        have hshape : tagLine [] n h line = d0 :: (ds ++ (':' :: (h ++ ('|' :: line)))) := by
          rw [tagLine, List.nil_append, ht, List.cons_append]
        rw [hshape, tryMarker, hmk]
        simp
    | cons c q =>
      have hshape : tagLine (c :: q) n h line
          = c :: (q ++ (toBase 10 n ++ (':' :: (h ++ ('|' :: line))))) := by
        rw [tagLine, List.cons_append]
      rw [hshape, tryMarker]
      by_cases hc : markerCh c = true
      · rw [if_pos hc, matchTagCore_marker_fail c q n h line hc]
        rfl
      · rw [if_neg hc]
  rw [stripLine, hmarker, hmain]

/-! ### `tagLines` shape -/

theorem tagLines_map_strip (pfx : Str) :
    ∀ (ls hs : List Str) (n : Nat), hs.length = ls.length →
    (∀ h' ∈ hs, (∀ c ∈ h', isHexLower c = true) ∧ 2 ≤ h'.length ∧ h'.length ≤ 8) →
    (tagLines pfx n ls hs).map (stripLine pfx) = ls := by
  intro ls
  induction ls with
  | nil => intro hs n _ _; cases hs <;> rfl
  | cons l ls' ih =>
    intro hs n hlen hh
    cases hs with
    | nil => simp at hlen
    | cons h hs' =>
      rw [tagLines, List.map_cons]
      have h1 := hh h (List.mem_cons_self h hs')
      rw [stripLine_tag pfx n h l h1.1 h1.2.1 h1.2.2]
      rw [ih hs' (n + 1) (by simpa using hlen)
        (fun h' m => hh h' (List.mem_cons_of_mem _ m))]

theorem tagLine_not_mem {x : Char} (pfx : Str) (n : Nat) (h line : Str)
    (hpfx : x ∉ pfx) (hline : x ∉ line)
    (hd : ∀ c ∈ toBase 10 n, c ≠ x) (hh : ∀ c ∈ h, c ≠ x)
    (hcolon : x ≠ ':') (hpipe : x ≠ '|') :
    x ∉ tagLine pfx n h line := by
  rw [tagLine]
  intro hm
  rcases List.mem_append.1 hm with h1 | h2
  · exact hpfx h1
  · rcases List.mem_append.1 h2 with h3 | h4
    · exact hd x h3 rfl
    · rcases List.mem_cons.1 h4 with h5 | h6
      · exact hcolon h5
      · rcases List.mem_append.1 h6 with h7 | h8
        · exact hh x h7 rfl
        · rcases List.mem_cons.1 h8 with h9 | h10
          · exact hpipe h9
          · exact hline h10

theorem tagLine_getLast_ne_cr (pfx : Str) (n : Nat) (h line : Str)
    (hl : line.getLast? ≠ some '\r') :
    (tagLine pfx n h line).getLast? ≠ some '\r' := by
  have hshape : tagLine pfx n h line
      = ((pfx ++ toBase 10 n) ++ (':' :: h)) ++ ('|' :: line) := by
    rw [tagLine]
    simp [List.append_assoc]
  rw [hshape, List.getLast?_append_cons]
  cases line with
  | nil => decide
  | cons a rest =>
    rw [List.getLast?_cons_cons]
    exact hl

theorem tagLines_noTrailCR (pfx : Str) :
    ∀ (ls hs : List Str) (n : Nat), hs.length = ls.length →
    noTrailCR ls = true → noTrailCR (tagLines pfx n ls hs) = true := by
  intro ls
  induction ls with
  | nil => intro hs n _ _; cases hs <;> rfl
  | cons l ls' ih =>
    intro hs n hlen hcr
    cases hs with
    | nil => simp at hlen
    | cons h hs' =>
      rw [tagLines]
      cases ls' with
      | nil =>
        cases hs' with
        | nil => rfl
        | cons h2 hs'' => simp at hlen
      | cons l2 ls'' =>
        cases hs' with
        | nil => simp at hlen
        | cons h2 hs'' =>
          rw [tagLines, noTrailCR]
          rw [noTrailCR] at hcr
          simp only [Bool.and_eq_true, bne_iff_ne, ne_eq] at hcr ⊢
          constructor
          · exact tagLine_getLast_ne_cr pfx n h l hcr.1
          · have := ih (h2 :: hs'') (n + 1) (by simpa using hlen) hcr.2
            rw [tagLines] at this
            exact this

theorem tagLines_length (pfx : Str) :
    ∀ (ls hs : List Str) (n : Nat), hs.length = ls.length →
    (tagLines pfx n ls hs).length = ls.length := by
  intro ls
  induction ls with
  | nil => intro hs n _; cases hs <;> rfl
  | cons l ls' ih =>
    intro hs n hlen
    cases hs with
    | nil => simp at hlen
    | cons h hs' =>
      rw [tagLines, List.length_cons, List.length_cons,
        ih hs' (n + 1) (by simpa using hlen)]

theorem tagLines_no_lf (pfx : Str) (hpfx : '\n' ∉ pfx) :
    ∀ (ls hs : List Str) (n : Nat), (∀ l ∈ ls, '\n' ∉ l) →
    (∀ h' ∈ hs, ∀ c ∈ h', isHexLower c = true) →
    ∀ t ∈ tagLines pfx n ls hs, '\n' ∉ t := by
  intro ls
  induction ls with
  | nil => intro hs n _ _ t ht; cases hs <;> simp [tagLines] at ht
  | cons l ls' ih =>
    intro hs n hls hhs t ht
    cases hs with
    | nil => simp [tagLines] at ht
    | cons h hs' =>
      rw [tagLines] at ht
      rcases List.mem_cons.1 ht with h1 | h2
      · subst h1
        apply tagLine_not_mem pfx n h l hpfx (hls l (List.mem_cons_self l ls'))
        · intro c hc
          exact fun e => isDigitCh_ne_lf (toBase_all_digits n c hc) (e ▸ rfl)
        · intro c hc
          exact fun e => isHexLower_ne_lf (hhs h (List.mem_cons_self h hs') c hc) (e ▸ rfl)
        · decide
        · decide
      · exact ih hs' (n + 1) (fun l' m => hls l' (List.mem_cons_of_mem _ m))
          (fun h' m => hhs h' (List.mem_cons_of_mem _ m)) t h2

/-! ### `assignHashes` shape -/

theorem assignHashes_length (eff : Nat) :
    ∀ (ls : List Str) (idx : Nat) (seen : List Str),
    (assignHashes eff idx seen ls).length = ls.length := by
  intro ls
  induction ls with
  | nil => intro idx seen; rfl
  | cons l ls' ih =>
    intro idx seen
    simp only [assignHashes]
    by_cases hm : computeLineHash idx l eff ∈ seen
    · simp only [if_pos hm, List.length_cons, ih]
    · simp only [if_neg hm, List.length_cons, ih]

theorem assignHashes_mem (eff : Nat) (heff : 1 ≤ eff) :
    ∀ (ls : List Str) (idx : Nat) (seen : List Str),
    ∀ h' ∈ assignHashes eff idx seen ls,
    (∀ c ∈ h', isHexLower c = true) ∧
      (h'.length = eff ∨ h'.length = min (eff + 1) 8) := by
  intro ls
  induction ls with
  | nil => intro idx seen h' hm; simp [assignHashes] at hm
  | cons l ls' ih =>
    intro idx seen h' hm
    simp only [assignHashes] at hm
    by_cases hs : computeLineHash idx l eff ∈ seen
    · rw [if_pos hs] at hm
      rcases List.mem_cons.1 hm with h1 | h2
      · subst h1
        exact ⟨computeLineHash_hex _ _ _,
          Or.inr (computeLineHash_length _ _ _ (by omega))⟩
      · exact ih (idx + 1) seen h' h2
    · rw [if_neg hs] at hm
      rcases List.mem_cons.1 hm with h1 | h2
      · subst h1
        exact ⟨computeLineHash_hex _ _ _,
          Or.inl (computeLineHash_length _ _ _ (by omega))⟩
      · exact ih (idx + 1) _ h' h2

/-! ### CRLF join lemmas (for the line-ending claims) -/

theorem containsCRLF_cons_true {a : Char} {l : Str} (h : containsCRLF l = true) :
    containsCRLF (a :: l) = true := by
  cases l with
  | nil => simp [containsCRLF] at h
  | cons b r =>
    rw [containsCRLF, h]
    simp

theorem containsCRLF_sep (p X : Str) : containsCRLF (p ++ '\r' :: '\n' :: X) = true := by
  induction p with
  | nil => simp [containsCRLF]
  | cons a p' ih =>
    rw [List.cons_append]
    exact containsCRLF_cons_true ih

theorem replaceCRLF_id {p : Str} (hp : ∀ c ∈ p, c ≠ '\r') : replaceCRLF p = p := by
  induction p with
  | nil => rfl
  | cons a p' ih =>
    cases p' with
    | nil => rfl
    | cons b r =>
      rw [replaceCRLF]
      have ha : a ≠ '\r' := hp a (List.mem_cons_self a _)
      rw [if_neg (fun hc => ha hc.1)]
      rw [ih (fun c m => hp c (List.mem_cons_of_mem _ m))]

theorem replaceCRLF_append (p : Str) (hp : ∀ c ∈ p, c ≠ '\r') (X : Str) :
    replaceCRLF (p ++ '\r' :: '\n' :: X) = p ++ '\n' :: replaceCRLF X := by
  induction p with
  | nil =>
    rw [List.nil_append, List.nil_append, replaceCRLF]
    simp
  | cons a p' ih =>
    have ha : a ≠ '\r' := hp a (List.mem_cons_self a _)
    cases p' with
    | nil =>
      rw [List.singleton_append, List.singleton_append, replaceCRLF,
        if_neg (fun hc => absurd hc.2 (by decide)), replaceCRLF, if_pos ⟨rfl, rfl⟩]
    | cons b r =>
      rw [List.cons_append, List.cons_append, replaceCRLF,
        if_neg (fun hc => ha hc.1), ← List.cons_append,
        ih (fun c m => hp c (List.mem_cons_of_mem _ m))]
      simp

theorem replaceCRLF_joinCRLF (ls : List Str)
    (h : ∀ p ∈ ls, ∀ c ∈ p, c ≠ '\r' ∧ c ≠ '\n') :
    replaceCRLF (joinWith ['\r', '\n'] ls) = joinWith ['\n'] ls := by
  induction ls with
  | nil => rfl
  | cons p ps ih =>
    cases ps with
    | nil =>
      simp only [joinWith]
      exact replaceCRLF_id (fun c m => (h p (List.mem_cons_self p _) c m).1)
    | cons q ps' =>
      rw [joinWith_cons ['\r', '\n'] p (q :: ps') (by simp),
        joinWith_cons ['\n'] p (q :: ps') (by simp)]
      have hshape : p ++ ['\r', '\n'] ++ joinWith ['\r', '\n'] (q :: ps')
          = p ++ '\r' :: '\n' :: joinWith ['\r', '\n'] (q :: ps') := by
        simp
      rw [hshape,
        replaceCRLF_append p (fun c m => (h p (List.mem_cons_self p _) c m).1),
        ih (fun p' m => h p' (List.mem_cons_of_mem _ m))]
      simp

theorem getLast?_ne_cr_of_no_cr {p : Str} (hp : ∀ c ∈ p, c ≠ '\r') :
    p.getLast? ≠ some '\r' := by
  intro he
  have hmem : '\r' ∈ p.getLast? := by rw [he]; rfl
  obtain ⟨hne, hgl⟩ := List.mem_getLast?_eq_getLast hmem
  exact hp '\r' (hgl ▸ List.getLast_mem hne) rfl

theorem noTrailCR_of_no_cr (ls : List Str) (h : ∀ p ∈ ls, ∀ c ∈ p, c ≠ '\r') :
    noTrailCR ls = true := by
  induction ls with
  | nil => rfl
  | cons p ps ih =>
    cases ps with
    | nil => rfl
    | cons q ps' =>
      rw [noTrailCR]
      simp only [Bool.and_eq_true, bne_iff_ne, ne_eq]
      exact ⟨getLast?_ne_cr_of_no_cr (h p (List.mem_cons_self p _)),
        ih (fun p' m => h p' (List.mem_cons_of_mem _ m))⟩

/-! ### Collision-widening characterization -/

theorem computeLineHash_ne_of_len {i1 i2 : Nat} {l1 l2 : Str} {L1 L2 : Nat}
    (h1 : 1 ≤ L1) (h2 : 1 ≤ L2) (hne : L1 ≠ L2) :
    computeLineHash i1 l1 L1 ≠ computeLineHash i2 l2 L2 := by
  intro he
  have hlen := congrArg List.length he
  rw [computeLineHash_length _ _ _ h1, computeLineHash_length _ _ _ h2] at hlen
  exact hne hlen

/-- Full characterization of the collision loop: a line's slot holds the
widened hash exactly when its base hash is in `seen` or equals an earlier
assigned slot, and otherwise holds the base hash. -/
theorem assignHashes_spec (eff : Nat) (heff : 3 ≤ eff) :
    ∀ (ls : List Str) (idx : Nat) (seen : List Str) (i : Nat), i < ls.length →
    ((computeLineHash (idx + i) (ls.getD i []) eff ∈ seen ∨
      (∃ j, j < i ∧ (assignHashes eff idx seen ls).getD j [] =
        computeLineHash (idx + i) (ls.getD i []) eff)) →
      (assignHashes eff idx seen ls).getD i [] =
        computeLineHash (idx + i) (ls.getD i []) (min (eff + 1) 8)) ∧
    ((computeLineHash (idx + i) (ls.getD i []) eff ∉ seen ∧
      ¬(∃ j, j < i ∧ (assignHashes eff idx seen ls).getD j [] =
        computeLineHash (idx + i) (ls.getD i []) eff)) →
      (assignHashes eff idx seen ls).getD i [] =
        computeLineHash (idx + i) (ls.getD i []) eff) := by
  intro ls
  induction ls with
  | nil =>
    intro idx seen i hi
    simp at hi
  | cons l ls' ih =>
    intro idx seen i hi
    by_cases hm : computeLineHash idx l eff ∈ seen
    · have hout : assignHashes eff idx seen (l :: ls')
          = computeLineHash idx l (min (eff + 1) 8) :: assignHashes eff (idx + 1) seen ls' := by
        simp only [assignHashes, if_pos hm]
      cases i with
      | zero =>
        constructor
        · intro _
          simp [hout]
        · intro hcond
          exact absurd (by simpa using hm) hcond.1
      | succ i' =>
        have hi' : i' < ls'.length := by simpa using hi
        have harith : idx + (i' + 1) = (idx + 1) + i' := by omega
        have hIH := ih (idx + 1) seen i' hi'
        have hgetD : ∀ j, (assignHashes eff idx seen (l :: ls')).getD (j + 1) []
            = (assignHashes eff (idx + 1) seen ls').getD j [] := by
          intro j; rw [hout]; simp
        have hbase : (l :: ls').getD (i' + 1) [] = ls'.getD i' [] := by simp
        have haux : computeLineHash (idx + (i' + 1)) ((l :: ls').getD (i' + 1) []) eff
            = computeLineHash ((idx + 1) + i') (ls'.getD i' []) eff := by
          rw [hbase, harith]
        have haux2 : computeLineHash (idx + (i' + 1)) ((l :: ls').getD (i' + 1) [])
              (min (eff + 1) 8)
            = computeLineHash ((idx + 1) + i') (ls'.getD i' []) (min (eff + 1) 8) := by
          rw [hbase, harith]
        rw [haux, haux2, hgetD i']
        constructor
        · intro hcond
          apply hIH.1
          rcases hcond with hseen | ⟨j, hj, hjeq⟩
          · exact Or.inl hseen
          · cases j with
            | zero =>
              rw [hout] at hjeq
              simp only [List.getD_cons_zero] at hjeq
              by_cases h8 : eff = 8
              · have hmin : min (eff + 1) 8 = eff := by omega
                rw [hmin] at hjeq
                refine Or.inl ?_
                rw [← hjeq]
                exact hm
              · exact absurd hjeq
                  (computeLineHash_ne_of_len (by omega) (by omega) (by omega))
            | succ j' =>
              refine Or.inr ⟨j', by omega, ?_⟩
              rw [← hgetD j']
              exact hjeq
        · intro hcond
          apply hIH.2
          refine ⟨hcond.1, ?_⟩
          intro ⟨j', hj', hje⟩
          exact hcond.2 ⟨j' + 1, by omega, by rw [hgetD j']; exact hje⟩
    · have hout : assignHashes eff idx seen (l :: ls')
          = computeLineHash idx l eff
            :: assignHashes eff (idx + 1) (computeLineHash idx l eff :: seen) ls' := by
        simp only [assignHashes, if_neg hm]
      cases i with
      | zero =>
        constructor
        · intro hcond
          rcases hcond with hseen | ⟨j, hj, _⟩
          · exact absurd (by simpa using hseen) hm
          · omega
        · intro _
          simp [hout]
      | succ i' =>
        have hi' : i' < ls'.length := by simpa using hi
        have harith : idx + (i' + 1) = (idx + 1) + i' := by omega
        have hIH := ih (idx + 1) (computeLineHash idx l eff :: seen) i' hi'
        have hgetD : ∀ j, (assignHashes eff idx seen (l :: ls')).getD (j + 1) []
            = (assignHashes eff (idx + 1)
                (computeLineHash idx l eff :: seen) ls').getD j [] := by
          intro j; rw [hout]; simp
        have hbase : (l :: ls').getD (i' + 1) [] = ls'.getD i' [] := by simp
        have haux : computeLineHash (idx + (i' + 1)) ((l :: ls').getD (i' + 1) []) eff
            = computeLineHash ((idx + 1) + i') (ls'.getD i' []) eff := by
          rw [hbase, harith]
        have haux2 : computeLineHash (idx + (i' + 1)) ((l :: ls').getD (i' + 1) [])
              (min (eff + 1) 8)
            = computeLineHash ((idx + 1) + i') (ls'.getD i' []) (min (eff + 1) 8) := by
          rw [hbase, harith]
        rw [haux, haux2, hgetD i']
        constructor
        · intro hcond
          apply hIH.1
          rcases hcond with hseen | ⟨j, hj, hjeq⟩
          · exact Or.inl (List.mem_cons_of_mem _ hseen)
          · cases j with
            | zero =>
              rw [hout] at hjeq
              simp only [List.getD_cons_zero] at hjeq
              refine Or.inl ?_
              rw [← hjeq]
              exact List.mem_cons_self _ _
            | succ j' =>
              refine Or.inr ⟨j', by omega, ?_⟩
              rw [← hgetD j']
              exact hjeq
        · intro hcond
          apply hIH.2
          constructor
          · intro hmem
            rcases List.mem_cons.1 hmem with he | hseen
            · apply hcond.2
              refine ⟨0, by omega, ?_⟩
              rw [hout]
              simp only [List.getD_cons_zero]
              exact he.symm
            · exact hcond.1 hseen
          · intro ⟨j', hj', hje⟩
            exact hcond.2 ⟨j' + 1, by omega, by rw [hgetD j']; exact hje⟩

/-! ### Unfolded forms of the annotator -/

theorem formatFileWithHashes_eq (T : Str) (hl : Option Nat) (P : PfxOpt) :
    formatFileWithHashes T hl P =
      joinWith ['\n'] (tagLines (effPfxOf P) 1 (splitOnCh '\n' (normEol T))
        (assignHashes (effLenOf hl (splitOnCh '\n' (normEol T)).length) 0 []
          (splitOnCh '\n' (normEol T)))) := rfl

theorem stripHashes_eq (content : Str) (P : PfxOpt) :
    stripHashes content P =
      restoreEol (containsCRLF content)
        (joinWith ['\n']
          ((splitOnCh '\n' (normEol content)).map (stripLine (effPfxOf P)))) := rfl

theorem effLenOf_ge3 (hl : Option Nat) (n : Nat) : 3 ≤ effLenOf hl n := by
  cases hl with
  | none =>
    simp only [effLenOf, getAdaptiveHashLength]
    split <;> omega
  | some h =>
    simp only [effLenOf, getAdaptiveHashLength]
    split
    · omega
    · split <;> omega

/-- A LF-join of LF-free pieces none of which (except possibly the last)
ends in `'\r'` contains no CRLF. -/
theorem joinWith_lf_noCRLF (ts : List Str) (h1 : ∀ t ∈ ts, '\n' ∉ t)
    (h2 : noTrailCR ts = true) : containsCRLF (joinWith ['\n'] ts) = false := by
  induction ts with
  | nil => rfl
  | cons t ts' ih =>
    cases ts' with
    | nil =>
      simp only [joinWith]
      exact noLF_noCRLF (h1 t (List.mem_cons_self t _))
    | cons t2 ts'' =>
      rw [joinWith_cons _ _ _ (by simp), List.append_assoc, List.singleton_append]
      apply append_lf_noCRLF
      · exact h1 t (List.mem_cons_self t _)
      · rw [noTrailCR] at h2
        simp only [Bool.and_eq_true, bne_iff_ne, ne_eq] at h2
        exact h2.1
      · apply ih
        · exact fun t' m => h1 t' (List.mem_cons_of_mem _ m)
        · rw [noTrailCR] at h2
          simp only [Bool.and_eq_true] at h2
          exact h2.2

/-- Formatting a CRLF-free document with a LF-free effective prefix yields
CRLF-free output (the formatter joins with plain `"\n"`). -/
theorem format_noCRLF_of (T : Str) (hl : Option Nat) (P : PfxOpt)
    (hT : containsCRLF T = false) (hP : '\n' ∉ effPfxOf P) :
    containsCRLF (formatFileWithHashes T hl P) = false := by
  have hnorm : normEol T = T := by simp [normEol, hT]
  rw [formatFileWithHashes_eq, hnorm]
  have heff := effLenOf_ge3 hl (splitOnCh '\n' T).length
  apply joinWith_lf_noCRLF
  · apply tagLines_no_lf (effPfxOf P) hP
    · exact splitOnCh_not_mem '\n' T
    · intro h' m
      exact (assignHashes_mem _ (by omega) _ _ _ h' m).1
  · apply tagLines_noTrailCR
    · exact assignHashes_length _ _ _ _
    · exact splitOnCh_noTrailCR hT

theorem restoreEol_false (s : Str) : restoreEol false s = s := rfl

/-! ## Claim theorems -/

/-- C1 counterexample: the round trip fails as stated.  For the CRLF document
`"a\r\nb"` the formatter normalizes to LF and never restores CRLF, so
stripping returns `"a\nb"`; and for a prefix containing a newline the strip
pattern can never match a line. -/
theorem C1_counterexample :
    stripHashes (formatFileWithHashes (lit ("a\r\nb")) (some 3) .undef) .undef
      ≠ lit ("a\r\nb") ∧
    stripHashes (formatFileWithHashes (lit ("x")) (some 3) (.str (lit ("A\nB"))))
      (.str (lit ("A\nB"))) ≠ lit ("x") := by
  decide

/-- C1 (amended): for every document `T` containing no CRLF, every hash
length `L ∈ {3,4}`, and every prefix `P` whose effective prefix string
contains no newline (this includes the default `"#HL "` and disabled
prefixes), stripping the formatted document recovers `T` exactly:
`stripHashes (formatFileWithHashes T L P) P = T`. -/
theorem C1_round_trip (T : Str) (L : Nat) (P : PfxOpt)
    (hT : containsCRLF T = false) (hL : L = 3 ∨ L = 4)
    (hP : '\n' ∉ effPfxOf P) :
    stripHashes (formatFileWithHashes T (some L) P) P = T := by
  have hnorm : normEol T = T := by simp [normEol, hT]
  have heff : effLenOf (some L) (splitOnCh '\n' T).length = L := by
    rcases hL with rfl | rfl <;> simp [effLenOf]
  have hfmt : formatFileWithHashes T (some L) P
      = joinWith ['\n'] (tagLines (effPfxOf P) 1 (splitOnCh '\n' T)
          (assignHashes L 0 [] (splitOnCh '\n' T))) := by
    rw [formatFileWithHashes_eq, hnorm, heff]
  have hlen : (assignHashes L 0 [] (splitOnCh '\n' T)).length
      = (splitOnCh '\n' T).length := assignHashes_length L _ 0 []
  have hproph : ∀ h' ∈ assignHashes L 0 [] (splitOnCh '\n' T),
      (∀ c ∈ h', isHexLower c = true) ∧ 2 ≤ h'.length ∧ h'.length ≤ 8 := by
    intro h' m
    have h0 := assignHashes_mem L (by rcases hL with rfl | rfl <;> omega) _ 0 [] h' m
    refine ⟨h0.1, ?_, ?_⟩ <;> rcases hL with rfl | rfl <;>
      rcases h0.2 with he | he <;> omega
  have htnolf := tagLines_no_lf (effPfxOf P) hP (splitOnCh '\n' T) _ 1
    (splitOnCh_not_mem '\n' T) (fun h' m => (hproph h' m).1)
  have htne : tagLines (effPfxOf P) 1 (splitOnCh '\n' T)
      (assignHashes L 0 [] (splitOnCh '\n' T)) ≠ [] := by
    intro he
    have hl0 := tagLines_length (effPfxOf P) _ _ 1 hlen
    rw [he] at hl0
    exact splitOnCh_ne_nil '\n' T (List.eq_nil_of_length_eq_zero hl0.symm)
  have hnocrlf : containsCRLF (formatFileWithHashes T (some L) P) = false :=
    format_noCRLF_of T (some L) P hT hP
  have hnorm2 : normEol (formatFileWithHashes T (some L) P)
      = formatFileWithHashes T (some L) P := by simp [normEol, hnocrlf]
  rw [stripHashes_eq, hnocrlf, hnorm2, hfmt, restoreEol_false,
    splitOnCh_joinWith '\n' _ htne htnolf,
    tagLines_map_strip (effPfxOf P) _ _ 1 hlen hproph]
  exact joinWith_splitOnCh '\n' T

theorem C1_round_trip_witness :
    containsCRLF (lit ("line one\nline two")) = false ∧
    stripHashes (formatFileWithHashes (lit ("line one\nline two")) (some 3) .undef) .undef
      = lit ("line one\nline two") :=
  ⟨by decide, C1_round_trip _ 3 .undef (by decide) (Or.inl rfl) (by decide)⟩

/-- C4 counterexample: formatting a document containing CRLF does not yield
CRLF-joined output — the formatter joins with LF unconditionally. -/
theorem C4_counterexample :
    containsCRLF (lit ("a\r\nb")) = true ∧
    containsCRLF (formatFileWithHashes (lit ("a\r\nb")) none .undef) = false := by
  decide

/-- C4 (amended): `formatFileWithHashes` normalizes CRLF to LF internally and
joins the emitted annotated lines with LF regardless of the original style:
formatting the CRLF-joined document of lines `ls` is the same as formatting
the LF-joined document, and the annotated output contains no CRLF at all
(`stripHashes`, not the formatter, is what restores line endings). -/
theorem C4_formatter_lf_join (ls : List Str) (hl : Option Nat) (P : PfxOpt)
    (hlen2 : 2 ≤ ls.length)
    (hclean : ∀ p ∈ ls, ∀ c ∈ p, c ≠ '\r' ∧ c ≠ '\n')
    (hP : '\n' ∉ effPfxOf P) :
    containsCRLF (joinWith ['\r', '\n'] ls) = true ∧
    formatFileWithHashes (joinWith ['\r', '\n'] ls) hl P
      = formatFileWithHashes (joinWith ['\n'] ls) hl P ∧
    containsCRLF (formatFileWithHashes (joinWith ['\r', '\n'] ls) hl P) = false := by
  rcases ls with _ | ⟨l1, _ | ⟨l2, ls2⟩⟩
  · simp at hlen2
  · simp at hlen2
  have hsep : containsCRLF (joinWith ['\r', '\n'] (l1 :: l2 :: ls2)) = true := by
    rw [joinWith_cons _ _ _ (by simp), List.append_assoc]
    have hsh : (['\r', '\n'] ++ joinWith ['\r', '\n'] (l2 :: ls2) : Str)
        = '\r' :: '\n' :: joinWith ['\r', '\n'] (l2 :: ls2) := rfl
    rw [hsh]
    exact containsCRLF_sep l1 _
  have hLFfree : containsCRLF (joinWith ['\n'] (l1 :: l2 :: ls2)) = false := by
    apply joinWith_lf_noCRLF
    · intro t m hmem
      exact (hclean t m '\n' hmem).2 rfl
    · exact noTrailCR_of_no_cr _ (fun p m c hc => (hclean p m c hc).1)
  have hrepl : replaceCRLF (joinWith ['\r', '\n'] (l1 :: l2 :: ls2))
      = joinWith ['\n'] (l1 :: l2 :: ls2) :=
    replaceCRLF_joinCRLF _ hclean
  have hnormC : normEol (joinWith ['\r', '\n'] (l1 :: l2 :: ls2))
      = joinWith ['\n'] (l1 :: l2 :: ls2) := by
    rw [normEol, if_pos hsep, hrepl]
  have hnormL : normEol (joinWith ['\n'] (l1 :: l2 :: ls2))
      = joinWith ['\n'] (l1 :: l2 :: ls2) := by
    simp [normEol, hLFfree]
  have hfmteq : formatFileWithHashes (joinWith ['\r', '\n'] (l1 :: l2 :: ls2)) hl P
      = formatFileWithHashes (joinWith ['\n'] (l1 :: l2 :: ls2)) hl P := by
    rw [formatFileWithHashes_eq, formatFileWithHashes_eq, hnormC, hnormL]
  refine ⟨hsep, hfmteq, ?_⟩
  rw [hfmteq]
  exact format_noCRLF_of _ hl P hLFfree hP

theorem C4_formatter_lf_join_witness :
    2 ≤ ([lit ("a"), lit ("b")] : List Str).length ∧
    formatFileWithHashes (joinWith ['\r', '\n'] [lit ("a"), lit ("b")]) none .undef
      = formatFileWithHashes (joinWith ['\n'] [lit ("a"), lit ("b")]) none .undef :=
  ⟨by decide,
    (C4_formatter_lf_join [lit ("a"), lit ("b")] none .undef (by decide)
      (by decide) (by decide)).2.1⟩

theorem exceptPure_eq {e a : Type} (x : a) : (pure x : Except e a) = Except.ok x := rfl

theorem exceptThrow_eq {e a : Type} (x : e) : (throw x : Except e a) = Except.error x := rfl

/-- C3: the verification length comes from the supplied hash itself. -/
theorem C3_verify_uses_hash_length (C : Str) (n L : Nat) (l : Str)
    (hL2 : 2 ≤ L) (hL8 : L ≤ 8)
    (hn : 1 ≤ n) (hn2 : n ≤ (splitOnCh '\n' C).length)
    (hline : (splitOnCh '\n' C).getD (n - 1) [] = l) :
    verifyHash n (computeLineHash (n - 1) l L) C none none = .valid := by
  simp only [verifyHash, Option.getD_none]
  rw [if_neg (by omega : ¬(n < 1 ∨ (splitOnCh '\n' C).length < n))]
  rw [computeLineHash_length _ _ _ (by omega : 1 ≤ L), hline]
  rw [if_pos rfl]

theorem C3_witness :
    (2 ≤ 3 ∧ 3 ≤ 8 ∧ 1 ≤ 2 ∧ 2 ≤ (splitOnCh '\n' (lit ("a\nb\nc"))).length) ∧
    verifyHash 2 (computeLineHash 1 (lit ("b")) 3) (lit ("a\nb\nc")) none none = .valid :=
  ⟨by decide, C3_verify_uses_hash_length (lit ("a\nb\nc")) 2 3 (lit ("b"))
    (by decide) (by decide) (by decide) (by decide) (by decide)⟩

/-- C2: stale references abort the edit atomically. -/
theorem C2_stale_reference_atomic (input : HashEditInput) (content : Str) (hl : Option Nat)
    (ns : Str) (s : Nat × Str)
    (h1 : normalizeHashRef input.startRef = .ok ns)
    (h2 : parseHashRef ns = .ok s) :
    (∀ e a, verifyHash s.1 s.2 (normEol content) hl
        (some (splitOnCh '\n' (normEol content))) = .mismatch e a →
      applyHashEdit input content hl = .error (.startRefInvalid (.mismatch e a))) ∧
    (∀ ne' e' ee ea, (input.operation = .replace ∨ input.operation = .delete) →
      verifyHash s.1 s.2 (normEol content) hl
        (some (splitOnCh '\n' (normEol content))) = .valid →
      normalizeHashRef (input.endRef.getD input.startRef) = .ok ne' →
      parseHashRef ne' = .ok e' →
      ¬(s.1 > e'.1) →
      verifyHash e'.1 e'.2 (normEol content) hl
        (some (splitOnCh '\n' (normEol content))) = .mismatch ee ea →
      applyHashEdit input content hl = .error (.endRefInvalid (.mismatch ee ea))) := by
  constructor
  · intro e a h3
    simp only [applyHashEdit, h1, h2, h3, Bind.bind, Except.bind]
    rfl
  · intro ne' e' ee ea hop hv hne hpe hgt hev
    rcases hop with h | h <;>
    · simp only [applyHashEdit, h1, h2, hv, h, Bind.bind, Except.bind]
      rw [if_neg (by simp)]
      simp only [hne, hpe, Except.bind]
      rw [if_neg hgt]
      simp only [hev]
      rfl

theorem C2_witness :
    normalizeHashRef (lit ("2:aaa")) = .ok (lit ("2:aaa")) ∧
    applyHashEdit (HashEditInput.mk .replace (lit ("2:aaa")) none (some (lit ("X"))))
      (lit ("line one\nline two\nline three")) none
      = .error (.startRefInvalid (.mismatch (lit ("aaa"))
          (computeLineHash 1 (lit ("line two")) 3))) :=
  ⟨by decide,
    (C2_stale_reference_atomic
      (HashEditInput.mk .replace (lit ("2:aaa")) none (some (lit ("X"))))
      (lit ("line one\nline two\nline three")) none (lit ("2:aaa")) (2, lit ("aaa"))
      (by decide) (by decide)).1 (lit ("aaa"))
      (computeLineHash 1 (lit ("line two")) 3) (by decide)⟩

/-- C9: range ordering is checked after parsing, before verification. -/
theorem C9_range_order (startRef endRef content : Str) (hl : Option Nat)
    (s e : Nat × Str)
    (hs : parseHashRef startRef = .ok s) (he : parseHashRef endRef = .ok e) :
    (s.1 > e.1 →
      resolveRange startRef endRef content hl = .error (.invalidRange s.1 e.1)) ∧
    (s.1 ≤ e.1 → ∀ a b,
      resolveRange startRef endRef content hl ≠ .error (.invalidRange a b)) := by
  constructor
  · intro hgt
    simp only [resolveRange, hs, he, Bind.bind, Except.bind]
    rw [if_pos hgt]
    rfl
  · intro hle a b
    simp only [resolveRange, hs, he, Bind.bind, Except.bind]
    rw [if_neg (by omega)]
    cases hv1 : verifyHash s.1 s.2 (normEol content) hl
        (some (splitOnCh '\n' (normEol content))) <;>
      cases hv2 : verifyHash e.1 e.2 (normEol content) hl
        (some (splitOnCh '\n' (normEol content))) <;>
      simp [exceptPure_eq, exceptThrow_eq]

theorem C9_witness :
    (3 > 1 ∧
      resolveRange (lit ("3:abc")) (lit ("1:def")) (lit ("x\ny\nz")) none
        = .error (.invalidRange 3 1)) ∧
    (1 ≤ 3 ∧ ∀ a b,
      resolveRange (lit ("1:abc")) (lit ("3:def")) (lit ("x\ny\nz")) none
        ≠ .error (.invalidRange a b)) :=
  ⟨⟨by decide, (C9_range_order (lit ("3:abc")) (lit ("1:def")) (lit ("x\ny\nz")) none
      (3, lit ("abc")) (1, lit ("def")) (by decide) (by decide)).1 (by decide)⟩,
   ⟨by decide, (C9_range_order (lit ("1:abc")) (lit ("3:def")) (lit ("x\ny\nz")) none
      (1, lit ("abc")) (3, lit ("def")) (by decide) (by decide)).2 (by decide)⟩⟩

/-- C6: insert operations verify only the start reference (the end reference
has no effect on the result) and splice the replacement lines at the
insertion index, leaving every other line unchanged. -/
theorem C6_insert_ops (input : HashEditInput) (content : Str) (hl : Option Nat)
    (hop : input.operation = .insert_before ∨ input.operation = .insert_after) :
    (∀ er1 er2, applyHashEdit { input with endRef := er1 } content hl
        = applyHashEdit { input with endRef := er2 } content hl) ∧
    (∀ ns s r, normalizeHashRef input.startRef = .ok ns →
      parseHashRef ns = .ok s →
      verifyHash s.1 s.2 (normEol content) hl
        (some (splitOnCh '\n' (normEol content))) = .valid →
      input.replacement = some r →
      applyHashEdit input content hl = .ok
        ⟨input.operation, s.1, s.1,
          restoreEol (containsCRLF content)
            (joinWith ['\n']
              ((splitOnCh '\n' (normEol content)).take
                  (if input.operation = .insert_before then s.1 - 1 else s.1)
                ++ splitOnCh '\n' r
                ++ (splitOnCh '\n' (normEol content)).drop
                  (if input.operation = .insert_before then s.1 - 1 else s.1)))⟩) := by
  constructor
  · intro er1 er2
    cases hn : normalizeHashRef input.startRef with
    | error err => simp [applyHashEdit, hn, Bind.bind, Except.bind]
    | ok ns =>
      cases hp : parseHashRef ns with
      | error err => simp [applyHashEdit, hn, hp, Bind.bind, Except.bind]
      | ok s =>
        cases hv : verifyHash s.1 s.2 (normEol content) hl
            (some (splitOnCh '\n' (normEol content))) with
        | valid =>
          rcases hop with h | h <;>
            simp [applyHashEdit, hn, hp, hv, h, Bind.bind, Except.bind]
        | outOfRange ln lc =>
          simp [applyHashEdit, hn, hp, hv, Bind.bind, Except.bind]
        | mismatch e a =>
          simp [applyHashEdit, hn, hp, hv, Bind.bind, Except.bind]
  · intro ns s r hn hp hv hr
    rcases hop with h | h <;>
    · simp only [applyHashEdit, hn, hp, hv, hr, h, Bind.bind, Except.bind]
      rw [if_pos (by simp)]
      rfl

theorem C6_witness :
    (HashEditInput.mk .insert_after (lit ("1:bbf")) none (some (lit ("NEW")))).operation
        = HashEditOperation.insert_after ∧
    applyHashEdit (HashEditInput.mk .insert_after (lit ("1:bbf")) none (some (lit ("NEW"))))
      (lit ("line one\nline two\nline three")) none
      = .ok ⟨.insert_after, 1, 1, lit ("line one\nNEW\nline two\nline three")⟩ := by
  constructor
  · rfl
  · have h := (C6_insert_ops
      (HashEditInput.mk .insert_after (lit ("1:bbf")) none (some (lit ("NEW"))))
      (lit ("line one\nline two\nline three")) none (Or.inr rfl)).2
      (lit ("1:bbf")) (1, lit ("bbf")) (lit ("NEW"))
      (by decide) (by decide) (by decide) (by decide)
    rw [h]
    decide

/-- C10: a missing replacement is reported only after the required
verifications succeed; a stale (`mismatch`) or out-of-range (`outOfRange`)
start (resp. end) reference is reported as `startRefInvalid`
(resp. `endRefInvalid`) carrying that outcome, never as
`missingReplacement`. -/
theorem C10_missing_replacement_order (input : HashEditInput) (content : Str)
    (hl : Option Nat) (hrep : input.replacement = none) :
    (∀ ns s o, normalizeHashRef input.startRef = .ok ns →
      parseHashRef ns = .ok s →
      verifyHash s.1 s.2 (normEol content) hl
        (some (splitOnCh '\n' (normEol content))) = o →
      o ≠ .valid →
      applyHashEdit input content hl = .error (.startRefInvalid o)) ∧
    (input.operation = .replace →
      ∀ ns s ne' e' o, normalizeHashRef input.startRef = .ok ns →
      parseHashRef ns = .ok s →
      verifyHash s.1 s.2 (normEol content) hl
        (some (splitOnCh '\n' (normEol content))) = .valid →
      normalizeHashRef (input.endRef.getD input.startRef) = .ok ne' →
      parseHashRef ne' = .ok e' →
      ¬(s.1 > e'.1) →
      verifyHash e'.1 e'.2 (normEol content) hl
        (some (splitOnCh '\n' (normEol content))) = o →
      o ≠ .valid →
      applyHashEdit input content hl = .error (.endRefInvalid o)) ∧
    (input.operation = .replace →
      ∀ ns s ne' e', normalizeHashRef input.startRef = .ok ns →
      parseHashRef ns = .ok s →
      verifyHash s.1 s.2 (normEol content) hl
        (some (splitOnCh '\n' (normEol content))) = .valid →
      normalizeHashRef (input.endRef.getD input.startRef) = .ok ne' →
      parseHashRef ne' = .ok e' →
      ¬(s.1 > e'.1) →
      verifyHash e'.1 e'.2 (normEol content) hl
        (some (splitOnCh '\n' (normEol content))) = .valid →
      applyHashEdit input content hl = .error (.missingReplacement .replace)) ∧
    ((input.operation = .insert_before ∨ input.operation = .insert_after) →
      ∀ ns s, normalizeHashRef input.startRef = .ok ns →
      parseHashRef ns = .ok s →
      verifyHash s.1 s.2 (normEol content) hl
        (some (splitOnCh '\n' (normEol content))) = .valid →
      applyHashEdit input content hl = .error (.missingReplacement input.operation)) := by
  refine ⟨?_, ?_, ?_, ?_⟩
  · intro ns s o hn hp hv ho
    simp only [applyHashEdit, hn, hp, hv, Bind.bind, Except.bind]
    cases o with
    | valid => exact absurd rfl ho
    | outOfRange ln lc => rfl
    | mismatch e a => rfl
  · intro hopr ns s ne' e' o hn hp hv hne hpe hgt hev ho
    simp only [applyHashEdit, hn, hp, hv, hopr, Bind.bind, Except.bind]
    rw [if_neg (by simp)]
    simp only [hne, hpe, Except.bind]
    rw [if_neg hgt]
    simp only [hev]
    cases o with
    | valid => exact absurd rfl ho
    | outOfRange ln lc => rfl
    | mismatch e a => rfl
  · intro hopr ns s ne' e' hn hp hv hne hpe hgt hev
    simp only [applyHashEdit, hn, hp, hv, hopr, hrep, Bind.bind, Except.bind]
    rw [if_neg (by simp)]
    simp only [hne, hpe, Except.bind]
    rw [if_neg hgt]
    simp only [hev]
    rw [if_neg (by simp)]
    rfl
  · intro hop ns s hn hp hv
    rcases hop with h | h <;>
    · simp only [applyHashEdit, hn, hp, hv, h, hrep, Bind.bind, Except.bind]
      rw [if_pos (by simp)]
      rfl

theorem C10_witness :
    (HashEditInput.mk .replace (lit ("2:aaa")) none none).replacement = none ∧
    applyHashEdit (HashEditInput.mk .replace (lit ("2:aaa")) none none)
      (lit ("line one\nline two\nline three")) none
      = .error (.startRefInvalid (.mismatch (lit ("aaa"))
          (computeLineHash 1 (lit ("line two")) 3))) ∧
    applyHashEdit (HashEditInput.mk .replace (lit ("99:abc")) none none)
      (lit ("line one\nline two\nline three")) none
      = .error (.startRefInvalid (.outOfRange 99 3)) :=
  ⟨rfl,
    (C10_missing_replacement_order
      (HashEditInput.mk .replace (lit ("2:aaa")) none none)
      (lit ("line one\nline two\nline three")) none rfl).1
      (lit ("2:aaa")) (2, lit ("aaa"))
      (.mismatch (lit ("aaa")) (computeLineHash 1 (lit ("line two")) 3))
      (by decide) (by decide) (by decide) (by decide),
    (C10_missing_replacement_order
      (HashEditInput.mk .replace (lit ("99:abc")) none none)
      (lit ("line one\nline two\nline three")) none rfl).1
      (lit ("99:abc")) (99, lit ("abc")) (.outOfRange 99 3)
      (by decide) (by decide) (by decide) (by decide)⟩

theorem findKey_append (l : List (Str × CacheEntry)) (k : Str) (v : CacheEntry)
    (h : ∀ x ∈ l, (x.1 == k) = false) :
    (l ++ [(k, v)]).find? (fun e => e.1 == k) = some (k, v) := by
  induction l with
  | nil => simp [List.find?]
  | cons a l' ih =>
    rw [List.cons_append, List.find?_cons]
    rw [h a (List.mem_cons_self a l')]
    exact ih (fun x hx => h x (List.mem_cons_of_mem _ hx))

theorem eraseKey_no_key (k : Str) (l : List (Str × CacheEntry)) :
    ∀ x ∈ eraseKey k l, (x.1 == k) = false := by
  intro x hx
  rw [eraseKey] at hx
  have hf := List.of_mem_filter hx
  revert hf
  cases hxk : (x.1 == k) <;> simp [bne, hxk]

theorem set_spec (c : HashlineCache) (k C A : Str) :
    ∃ e2 : List (Str × CacheEntry),
      (HashlineCache.set c k C A).entries = e2 ++ [(k, ⟨fnv1aHash C, A⟩)] ∧
      ∀ x ∈ e2, (x.1 == k) = false := by
  rw [HashlineCache.set]
  refine ⟨_, rfl, ?_⟩
  intro x hx
  have hx1 : x ∈ (if c.entries.any (fun e => e.1 == k) then eraseKey k c.entries
      else c.entries) := by
    by_cases h2 : c.maxSize ≤
        (if c.entries.any (fun e => e.1 == k) then eraseKey k c.entries
          else c.entries).length
    · rw [if_pos h2] at hx
      exact List.mem_of_mem_tail hx
    · rwa [if_neg h2] at hx
  by_cases hany : c.entries.any (fun e => e.1 == k) = true
  · rw [if_pos hany] at hx1
    exact eraseKey_no_key k c.entries x hx1
  · rw [if_neg hany] at hx1
    have := List.any_eq_false.1 (Bool.eq_false_iff.2 hany) x hx1
    revert this
    cases hxk : (x.1 == k) <;> simp [hxk]

/-- C7: cache fingerprint behavior.  A `get` with the same content after a
`set` hits and returns the stored annotated text; after overwriting the key
with content whose 32-bit fingerprint differs, a `get` with the old content
misses (returns `none`, evicting the entry). -/
theorem C7_cache_fingerprint (c : HashlineCache) (k C A : Str) :
    (HashlineCache.get (HashlineCache.set c k C A) k C).1 = some A ∧
    (∀ C2 A2, fnv1aHash C2 ≠ fnv1aHash C →
      (HashlineCache.get (HashlineCache.set (HashlineCache.set c k C A) k C2 A2) k C).1
        = none) := by
  constructor
  · obtain ⟨e2, he, hno⟩ := set_spec c k C A
    rw [HashlineCache.get, he, findKey_append _ _ _ hno]
    simp
  · intro C2 A2 hfp
    obtain ⟨e2, he, hno⟩ := set_spec (HashlineCache.set c k C A) k C2 A2
    rw [HashlineCache.get, he, findKey_append _ _ _ hno]
    simp [hfp]

/-- C7 counterexample: content inequality alone does not imply a miss — the
32-bit FNV-1a fingerprint collides on `"e8x"` and `"ocjc"`, so after
overwriting with different content of equal fingerprint, `get` still
returns the (stale) stored annotation instead of a miss. -/
theorem C7_counterexample :
    lit ("e8x") ≠ lit ("ocjc") ∧
    fnv1aHash (lit ("e8x")) = fnv1aHash (lit ("ocjc")) ∧
    (HashlineCache.get
      (HashlineCache.set
        (HashlineCache.set (HashlineCache.mk [] 100) (lit ("k")) (lit ("e8x")) (lit ("A1")))
        (lit ("k")) (lit ("ocjc")) (lit ("A2")))
      (lit ("k")) (lit ("e8x"))).1 = some (lit ("A2")) := by
  refine ⟨by decide, by decide, by decide⟩

theorem C7_witness :
    fnv1aHash (lit ("b")) ≠ fnv1aHash (lit ("a")) ∧
    (HashlineCache.get
      (HashlineCache.set
        (HashlineCache.set (HashlineCache.mk [] 100) (lit ("k")) (lit ("a")) (lit ("A")))
        (lit ("k")) (lit ("b")) (lit ("A2")))
      (lit ("k")) (lit ("a"))).1 = none :=
  ⟨by decide,
    (C7_cache_fingerprint (HashlineCache.mk [] 100) (lit ("k")) (lit ("a")) (lit ("A"))).2
      (lit ("b")) (lit ("A2")) (by decide)⟩

/-- C5: collision widening is local.  The hashes emitted by
`formatFileWithHashes` are exactly `assignHashes` over the split document at
the effective length; a line whose base hash equals a hash already assigned
to an earlier line is recomputed alone at `min (effLen+1) 8`, and a line
whose base hash matches no earlier assigned hash keeps its base hash. -/
theorem C5_local_collision_widening (content : Str) (hashLen : Option Nat) (P : PfxOpt)
    (i : Nat) (hi : i < (splitOnCh '\n' (normEol content)).length) :
    let lines := splitOnCh '\n' (normEol content)
    let eff := effLenOf hashLen lines.length
    let hs := assignHashes eff 0 [] lines
    formatFileWithHashes content hashLen P
        = joinWith ['\n'] (tagLines (effPfxOf P) 1 lines hs) ∧
    ((∃ j, j < i ∧ hs.getD j [] = computeLineHash i (lines.getD i []) eff) →
      hs.getD i [] = computeLineHash i (lines.getD i []) (min (eff + 1) 8)) ∧
    (¬(∃ j, j < i ∧ hs.getD j [] = computeLineHash i (lines.getD i []) eff) →
      hs.getD i [] = computeLineHash i (lines.getD i []) eff) := by
  intro lines eff hs
  have hspec := assignHashes_spec eff
    (effLenOf_ge3 hashLen lines.length) lines 0 [] i hi
  refine ⟨rfl, ?_, ?_⟩
  · intro hex
    have h1 := hspec.1
    rw [Nat.zero_add] at h1
    apply h1
    right
    exact hex
  · intro hnex
    have h2 := hspec.2
    rw [Nat.zero_add] at h2
    exact h2 ⟨by simp, hnex⟩

theorem C5_witness :
    (1 < (splitOnCh '\n' (normEol (lit ("cj\naa")))).length) ∧
    (assignHashes 3 0 [] (splitOnCh '\n' (normEol (lit ("cj\naa"))))).getD 1 []
      = computeLineHash 1 ((splitOnCh '\n' (normEol (lit ("cj\naa")))).getD 1 [])
          (min (3 + 1) 8) := by
  refine ⟨by decide, ?_⟩
  have h := C5_local_collision_widening (lit ("cj\naa")) none .undef 1 (by decide)
  exact h.2.1 ⟨0, by omega, by decide⟩

end Hashline
namespace Hashline

/-! ### Trim and character-class lemmas for reference normalization -/

theorem dropWhile_all_false {α} {p : α → Bool} {l : List α}
    (h : ∀ x ∈ l, p x = false) : l.dropWhile p = l := by
  cases l with
  | nil => rfl
  | cons a l' =>
    rw [List.dropWhile_cons, if_neg]
    simp [h a (List.mem_cons_self a l')]

theorem dropWhile_head_false {α} {p : α → Bool} {l : List α} {x : α} {xs : List α}
    (h : l.dropWhile p = x :: xs) : p x = false := by
  induction l with
  | nil => simp [List.dropWhile] at h
  | cons a l' ih =>
    rw [List.dropWhile_cons] at h
    by_cases ha : p a = true
    · rw [if_pos ha] at h
      exact ih h
    · rw [if_neg ha] at h
      rw [List.cons.injEq] at h
      rw [← h.1]
      revert ha
      cases p a <;> simp

theorem mem_of_mem_dropWhile {α} {p : α → Bool} {l : List α} :
    ∀ x ∈ l.dropWhile p, x ∈ l := by
  induction l with
  | nil => intro x hx; simp [List.dropWhile] at hx
  | cons a l' ih =>
    intro x hx
    rw [List.dropWhile_cons] at hx
    by_cases ha : p a = true
    · rw [if_pos ha] at hx
      exact List.mem_cons_of_mem _ (ih x hx)
    · rw [if_neg ha] at hx
      exact hx

theorem mem_jsTrimEnd {s : Str} : ∀ x ∈ jsTrimEnd s, x ∈ s := by
  intro x hx
  rw [jsTrimEnd, List.mem_reverse] at hx
  exact List.mem_reverse.1 (mem_of_mem_dropWhile x hx)

theorem jsTrim_of_nonwhite {s : Str} (h : ∀ c ∈ s, jsWhite c = false) : jsTrim s = s := by
  rw [jsTrim, dropWhile_all_false h, jsTrimEnd,
    dropWhile_all_false (fun c hc => h c (List.mem_reverse.1 hc)), List.reverse_reverse]

theorem jsTrimEnd_append_cons {c : Char} (hc : jsWhite c = false) (a b : Str) :
    jsTrimEnd (a ++ c :: b) = a ++ c :: jsTrimEnd b := by
  rw [jsTrimEnd, jsTrimEnd]
  rw [List.reverse_append, List.reverse_cons, List.append_assoc, List.singleton_append]
  rw [dropWhile_append_stop _ _ _ _ hc]
  rw [List.reverse_append, List.reverse_cons, List.reverse_reverse]
  simp

theorem not_white_of_digit {c : Char} (h : isDigitCh c = true) : jsWhite c = false := by
  simp [isDigitCh] at h
  simp [jsWhite]
  omega

theorem not_white_of_hexAny {c : Char} (h : isHexAny c = true) : jsWhite c = false := by
  simp [isHexAny, isHexLower, isDigitCh] at h
  simp [jsWhite]
  omega

theorem not_white_of_hashWord {c : Char} (h : isHashWord c = true) : jsWhite c = false := by
  simp [isHashWord, isDigitCh] at h
  simp [jsWhite]
  omega

theorem not_digit_of_white {c : Char} (h : jsWhite c = true) : isDigitCh c = false := by
  simp [jsWhite] at h
  simp [isDigitCh]
  omega

theorem not_hashWord_of_white {c : Char} (h : jsWhite c = true) : isHashWord c = false := by
  simp [jsWhite] at h
  simp [isHashWord, isDigitCh]
  omega

theorem ne_colon_of_white {c : Char} (h : jsWhite c = true) : c ≠ ':' := by
  apply char_ne_of_toNat_ne
  have h58 : (':' : Char).toNat = 58 := by decide
  rw [h58]
  simp [jsWhite] at h
  omega

theorem ne_colon_of_hashWord {c : Char} (h : isHashWord c = true) : c ≠ ':' := by
  apply char_ne_of_toNat_ne
  have h58 : (':' : Char).toNat = 58 := by decide
  rw [h58]
  simp [isHashWord, isDigitCh] at h
  omega

theorem digit_isHashWord {c : Char} (h : isDigitCh c = true) : isHashWord c = true := by
  simp [isHashWord, h]

theorem toBase_all_hashWord (n : Nat) : ∀ c ∈ toBase 10 n, isHashWord c = true :=
  fun c hc => digit_isHashWord (toBase_all_digits n c hc)

theorem all_hexAny_append_pipe_false (h rest : Str) :
    (h ++ '|' :: rest).all isHexAny = false := by
  cases hall : (h ++ '|' :: rest).all isHexAny
  · rfl
  · exfalso
    have := List.all_eq_true.1 hall '|' (by simp)
    exact absurd this (by decide)

/-- The annotated-reference core pattern succeeds on a well-formed tail. -/
theorem matchRefTail_shape (n : Nat) (h rest : Str)
    (hhex : ∀ c ∈ h, isHexAny c = true) (h2 : 2 ≤ h.length) (h8 : h.length ≤ 8)
    (hrest : ∀ c ∈ rest, dotCh c = true) :
    matchRefTail (toBase 10 n ++ ':' :: (h ++ '|' :: rest))
      = some (decValue (toBase 10 n), h) := by
  have hds : (toBase 10 n ++ ':' :: (h ++ '|' :: rest)).takeWhile isDigitCh = toBase 10 n :=
    takeWhile_run _ _ _ _ (toBase_all_digits n) (by decide)
  have hds' : (toBase 10 n ++ ':' :: (h ++ '|' :: rest)).dropWhile isDigitCh
      = ':' :: (h ++ '|' :: rest) :=
    dropWhile_run _ _ _ _ (toBase_all_digits n) (by decide)
  have hhx : (h ++ '|' :: rest).takeWhile isHexAny = h :=
    takeWhile_run _ _ _ _ hhex (by decide)
  have hhx' : (h ++ '|' :: rest).dropWhile isHexAny = '|' :: rest :=
    dropWhile_run _ _ _ _ hhex (by decide)
  rw [matchRefTail]
  simp only [hds, hds', hhx, hhx']
  rw [if_neg (by simp [toBase_ne_nil])]
  simp [h2, h8, List.all_eq_true.2 hrest]

end Hashline
namespace Hashline

/-- Every failure of `normalizeHashRef` is `invalidRef` carrying the raw input. -/
theorem normalize_err_invalidRef (r : Str) (err : HashErr)
    (h : normalizeHashRef r = .error err) : err = HashErr.invalidRef r := by
  simp only [normalizeHashRef] at h
  repeat' split at h
  all_goals simp_all

/-- The plain pattern: a canonical number, a colon, and 2–8 hex digits. -/
theorem normalize_plain_ok (n : Nat) (h : Str)
    (hhex : ∀ c ∈ h, isHexAny c = true) (h2 : 2 ≤ h.length) (h8 : h.length ≤ 8) :
    normalizeHashRef (toBase 10 n ++ ':' :: h)
      = .ok (toBase 10 n ++ ':' :: h.map lowerCh) := by
  have htrim : jsTrim (toBase 10 n ++ ':' :: h) = toBase 10 n ++ ':' :: h := by
    apply jsTrim_of_nonwhite
    intro c hc
    rcases List.mem_append.1 hc with hm | hm
    · exact not_white_of_digit (toBase_all_digits n c hm)
    · rcases List.mem_cons.1 hm with hm | hm
      · rw [hm]; decide
      · exact not_white_of_hexAny (hhex c hm)
  have hds : (toBase 10 n ++ ':' :: h).takeWhile isDigitCh = toBase 10 n :=
    takeWhile_run _ _ _ _ (toBase_all_digits n) (by decide)
  have hdw : (toBase 10 n ++ ':' :: h).dropWhile isDigitCh = ':' :: h :=
    dropWhile_run _ _ _ _ (toBase_all_digits n) (by decide)
  simp only [normalizeHashRef, htrim, hds, hdw]
  rw [if_pos ⟨by trivial, toBase_ne_nil 10 n, List.all_eq_true.2 hhex, h2, h8⟩]
  simp only [decValue_toBase]

/-- The annotated pattern with no prefix. -/
theorem normalize_annotated_ok (n : Nat) (h rest : Str)
    (hhex : ∀ c ∈ h, isHexAny c = true) (h2 : 2 ≤ h.length) (h8 : h.length ≤ 8)
    (hrest : ∀ c ∈ rest, dotCh c = true) :
    normalizeHashRef (toBase 10 n ++ (':' :: (h ++ ('|' :: rest))))
      = .ok (toBase 10 n ++ ':' :: h.map lowerCh) := by
  obtain ⟨d0, ds', hds0⟩ : ∃ d0 ds', toBase 10 n = d0 :: ds' := by
    cases hb : toBase 10 n with
    | nil => exact absurd hb (toBase_ne_nil 10 n)
    | cons a l => exact ⟨a, l, rfl⟩
  have hd0dig : isDigitCh d0 = true := toBase_all_digits n d0 (by rw [hds0]; simp)
  have hlead : (toBase 10 n ++ (':' :: (h ++ ('|' :: rest)))).dropWhile jsWhite
      = toBase 10 n ++ (':' :: (h ++ ('|' :: rest))) := by
    rw [hds0, List.cons_append, List.dropWhile_cons,
      if_neg (by simp [not_white_of_digit hd0dig])]
  have htrimEnd : jsTrimEnd (toBase 10 n ++ (':' :: (h ++ ('|' :: rest))))
      = (toBase 10 n ++ ':' :: h) ++ '|' :: jsTrimEnd rest := by
    have hshape : toBase 10 n ++ (':' :: (h ++ ('|' :: rest)))
        = (toBase 10 n ++ ':' :: h) ++ '|' :: rest := by simp
    rw [hshape, jsTrimEnd_append_cons (by decide)]
  have htrim : jsTrim (toBase 10 n ++ (':' :: (h ++ ('|' :: rest))))
      = toBase 10 n ++ (':' :: (h ++ ('|' :: jsTrimEnd rest))) := by
    rw [jsTrim, hlead, htrimEnd]
    simp
  have hrest' : ∀ c ∈ jsTrimEnd rest, dotCh c = true :=
    fun c hc => hrest c (mem_jsTrimEnd c hc)
  have hdw : (toBase 10 n ++ (':' :: (h ++ ('|' :: jsTrimEnd rest)))).dropWhile isDigitCh
      = ':' :: (h ++ '|' :: jsTrimEnd rest) :=
    dropWhile_run _ _ _ _ (toBase_all_digits n) (by decide)
  have hafter : (toBase 10 n ++ (':' :: (h ++ ('|' :: jsTrimEnd rest)))).dropWhile isHashWord
      = ':' :: (h ++ '|' :: jsTrimEnd rest) :=
    dropWhile_run _ _ _ _ (toBase_all_hashWord n) (by decide)
  have htw : ((':' :: (h ++ '|' :: jsTrimEnd rest)) : Str).takeWhile jsWhite = [] := by
    rw [List.takeWhile_cons, if_neg (by decide)]
  have htail := matchRefTail_shape n h (jsTrimEnd rest) hhex h2 h8 hrest'
  simp only [normalizeHashRef, htrim, hdw]
  rw [if_neg (fun hc => absurd hc.2.2.1 (by rw [all_hexAny_append_pipe_false]; simp))]
  simp only [hafter, htw]
  rw [if_neg (by simp)]
  simp only [htail, decValue_toBase]

end Hashline
namespace Hashline

/-- The annotated pattern with a word-run + whitespace-run prefix
(the shape the regex group `[#\w]*\s+` accepts). -/
theorem normalize_annotated_pfx_ok (w ws : Str) (n : Nat) (h rest : Str)
    (hwne : w ≠ []) (hw : ∀ c ∈ w, isHashWord c = true)
    (hwsne : ws ≠ []) (hws : ∀ c ∈ ws, jsWhite c = true)
    (hhex : ∀ c ∈ h, isHexAny c = true) (h2 : 2 ≤ h.length) (h8 : h.length ≤ 8)
    (hrest : ∀ c ∈ rest, dotCh c = true) :
    normalizeHashRef (w ++ (ws ++ (toBase 10 n ++ (':' :: (h ++ ('|' :: rest))))))
      = .ok (toBase 10 n ++ ':' :: h.map lowerCh) := by
  rcases w with _ | ⟨w0, w''⟩
  · exact absurd rfl hwne
  rcases ws with _ | ⟨ws0, ws''⟩
  · exact absurd rfl hwsne
  obtain ⟨d0, ds', hds0⟩ : ∃ d0 ds', toBase 10 n = d0 :: ds' := by
    cases hb : toBase 10 n with
    | nil => exact absurd hb (toBase_ne_nil 10 n)
    | cons a l => exact ⟨a, l, rfl⟩
  have hd0dig : isDigitCh d0 = true := toBase_all_digits n d0 (by rw [hds0]; simp)
  have hw0 : isHashWord w0 = true := hw w0 (by simp)
  have hws0 : jsWhite ws0 = true := hws ws0 (by simp)
  -- the trim is computed on the raw input
  have hlead : ((w0 :: w'') ++ ((ws0 :: ws'') ++ (toBase 10 n ++ (':' :: (h ++ ('|' :: rest)))))).dropWhile jsWhite
      = (w0 :: w'') ++ ((ws0 :: ws'') ++ (toBase 10 n ++ (':' :: (h ++ ('|' :: rest))))) := by
    rw [List.cons_append, List.dropWhile_cons,
      if_neg (by simp [not_white_of_hashWord hw0])]
  have htrimEnd : jsTrimEnd ((w0 :: w'') ++ ((ws0 :: ws'') ++ (toBase 10 n ++ (':' :: (h ++ ('|' :: rest))))))
      = ((w0 :: w'') ++ ((ws0 :: ws'') ++ (toBase 10 n ++ ':' :: h))) ++ '|' :: jsTrimEnd rest := by
    have hshape : (w0 :: w'') ++ ((ws0 :: ws'') ++ (toBase 10 n ++ (':' :: (h ++ ('|' :: rest)))))
        = ((w0 :: w'') ++ ((ws0 :: ws'') ++ (toBase 10 n ++ ':' :: h))) ++ '|' :: rest := by simp
    rw [hshape, jsTrimEnd_append_cons (by decide)]
  have htrim : jsTrim ((w0 :: w'') ++ ((ws0 :: ws'') ++ (toBase 10 n ++ (':' :: (h ++ ('|' :: rest))))))
      = (w0 :: w'') ++ ((ws0 :: ws'') ++ (toBase 10 n ++ (':' :: (h ++ ('|' :: jsTrimEnd rest))))) := by
    rw [jsTrim, hlead, htrimEnd]
    simp
  have hrest' : ∀ c ∈ jsTrimEnd rest, dotCh c = true :=
    fun c hc => hrest c (mem_jsTrimEnd c hc)
  -- abbreviate the trimmed tail after the prefix
  have hT2 : (w0 :: w'') ++ ((ws0 :: ws'') ++ (toBase 10 n ++ (':' :: (h ++ ('|' :: jsTrimEnd rest)))))
      = (w0 :: w'') ++ ws0 :: (ws'' ++ (toBase 10 n ++ (':' :: (h ++ ('|' :: jsTrimEnd rest))))) := by
    simp
  -- the plain pattern fails: the digit run stops at a non-colon character
  obtain ⟨c, hs2, hcons, hcne⟩ :
      ∃ c hs2, ((w0 :: w'') ++ ((ws0 :: ws'') ++ (toBase 10 n ++ (':' :: (h ++ ('|' :: jsTrimEnd rest)))))).dropWhile isDigitCh
        = c :: hs2 ∧ c ≠ ':' := by
    have hstep : ((w0 :: w'') ++ ws0 :: (ws'' ++ (toBase 10 n ++ (':' :: (h ++ ('|' :: jsTrimEnd rest)))))).dropWhile isDigitCh
        = (w0 :: w'').dropWhile isDigitCh ++ ws0 :: (ws'' ++ (toBase 10 n ++ (':' :: (h ++ ('|' :: jsTrimEnd rest)))))  :=
      dropWhile_append_stop _ _ _ _ (not_digit_of_white hws0)
    rcases hwd : (w0 :: w'').dropWhile isDigitCh with _ | ⟨d, r⟩
    · refine ⟨ws0, ws'' ++ (toBase 10 n ++ (':' :: (h ++ ('|' :: jsTrimEnd rest)))), ?_, ne_colon_of_white hws0⟩
      rw [hT2, hstep, hwd]
      simp
    · refine ⟨d, r ++ ws0 :: (ws'' ++ (toBase 10 n ++ (':' :: (h ++ ('|' :: jsTrimEnd rest))))), ?_, ?_⟩
      · rw [hT2, hstep, hwd]
        simp
      · have hdmem : d ∈ (w0 :: w'') := mem_of_mem_dropWhile d (by rw [hwd]; simp)
        exact ne_colon_of_hashWord (hw d hdmem)
  -- the group branch succeeds
  have hafter : ((w0 :: w'') ++ ((ws0 :: ws'') ++ (toBase 10 n ++ (':' :: (h ++ ('|' :: jsTrimEnd rest)))))).dropWhile isHashWord
      = ws0 :: (ws'' ++ (toBase 10 n ++ (':' :: (h ++ ('|' :: jsTrimEnd rest)))))  := by
    rw [hT2]
    exact dropWhile_run _ _ _ _ hw (not_hashWord_of_white hws0)
  have hX : toBase 10 n ++ (':' :: (h ++ ('|' :: jsTrimEnd rest)))
      = d0 :: (ds' ++ (':' :: (h ++ ('|' :: jsTrimEnd rest)))) := by
    rw [hds0]
    simp
  have hT3 : ws0 :: (ws'' ++ (toBase 10 n ++ (':' :: (h ++ ('|' :: jsTrimEnd rest)))))
      = (ws0 :: ws'') ++ d0 :: (ds' ++ (':' :: (h ++ ('|' :: jsTrimEnd rest)))) := by
    rw [← hX]
    simp
  have htwW : (ws0 :: (ws'' ++ (toBase 10 n ++ (':' :: (h ++ ('|' :: jsTrimEnd rest))))) : Str).takeWhile jsWhite
      = ws0 :: ws'' := by
    rw [hT3]
    exact takeWhile_run _ _ _ _ hws (not_white_of_digit hd0dig)
  have hdwW : (ws0 :: (ws'' ++ (toBase 10 n ++ (':' :: (h ++ ('|' :: jsTrimEnd rest))))) : Str).dropWhile jsWhite
      = toBase 10 n ++ (':' :: (h ++ ('|' :: jsTrimEnd rest))) := by
    rw [hT3, dropWhile_run _ _ _ _ hws (not_white_of_digit hd0dig), ← hX]
  have htail := matchRefTail_shape n h (jsTrimEnd rest) hhex h2 h8 hrest'
  simp only [normalizeHashRef, htrim, hcons]
  rw [if_neg (fun hcond => hcne hcond.1)]
  simp only [hafter, htwW, hdwW]
  rw [if_pos (by simp)]
  simp only [htail, decValue_toBase]

end Hashline
namespace Hashline

/-- C8: "normalizeHashRef accepts either a bare reference or a full annotated
line for any prefix the formatter could have used, and returns the canonical
lower-cased reference; for every other input it fails with InvalidReference."
CORRECTED: the annotated form is only accepted when the prefix matches
`[#\w]*\s+` (a run of `#`/word characters followed by at least one whitespace
character, e.g. the default prefix), or is absent; the formatter accepts
arbitrary prefix strings, and an annotated line produced with a prefix outside
that shape (e.g. `"!! "`) is rejected — see the counterexample. What holds:
every failure is `invalidRef` of the raw input; a bare `<n>:<hash>` with 2–8
hex characters of any case normalizes to its lower-cased form; so does an
annotated `<n>:<hash>|<tail>` line with no prefix or with a word-run +
whitespace-run prefix, for a tail without line terminators.  The line
number is quantified below `2^53`: in that range JS `parseInt` and template
rendering are exact, so the model's exact `decValue`/`toBase 10` round
trip coincides with the program's (above `2^53` the program rounds the
parsed number to binary64, so the canonical output differs from the model
and the unbounded statement would be unfaithful). -/
theorem C8_normalize_forms :
    (∀ (r : Str) (err : HashErr),
      normalizeHashRef r = .error err → err = HashErr.invalidRef r) ∧
    (∀ (n : Nat) (h : Str), n < 9007199254740992 →
      (∀ c ∈ h, isHexAny c = true) →
      2 ≤ h.length → h.length ≤ 8 →
      normalizeHashRef (toBase 10 n ++ ':' :: h)
        = .ok (toBase 10 n ++ ':' :: h.map lowerCh)) ∧
    (∀ (n : Nat) (h rest : Str), n < 9007199254740992 →
      (∀ c ∈ h, isHexAny c = true) →
      2 ≤ h.length → h.length ≤ 8 → (∀ c ∈ rest, dotCh c = true) →
      normalizeHashRef (toBase 10 n ++ (':' :: (h ++ ('|' :: rest))))
        = .ok (toBase 10 n ++ ':' :: h.map lowerCh)) ∧
    (∀ (w ws : Str) (n : Nat) (h rest : Str), n < 9007199254740992 →
      w ≠ [] → (∀ c ∈ w, isHashWord c = true) →
      ws ≠ [] → (∀ c ∈ ws, jsWhite c = true) →
      (∀ c ∈ h, isHexAny c = true) → 2 ≤ h.length → h.length ≤ 8 →
      (∀ c ∈ rest, dotCh c = true) →
      normalizeHashRef (w ++ (ws ++ (toBase 10 n ++ (':' :: (h ++ ('|' :: rest))))))
        = .ok (toBase 10 n ++ ':' :: h.map lowerCh)) :=
  ⟨normalize_err_invalidRef,
    fun n h _ => normalize_plain_ok n h,
    fun n h rest _ => normalize_annotated_ok n h rest,
    fun w ws n h rest _ => normalize_annotated_pfx_ok w ws n h rest⟩

/-- C8 counterexample: the formatter accepts the prefix `"!! "` and emits the
annotated line `"!! 1:132|x"`, but `normalizeHashRef` rejects that very line
with `invalidRef`, because `!` matches neither `[#\w]` nor `\s`. -/
theorem C8_counterexample :
    formatFileWithHashes (lit ("x")) (some 3) (PfxOpt.str (lit ("!! ")))
        = lit ("!! 1:132|x") ∧
    normalizeHashRef (lit ("!! 1:132|x"))
        = .error (.invalidRef (lit ("!! 1:132|x"))) := by
  constructor
  · decide
  · decide

theorem C8_witness :
    HashErr.invalidRef (lit ("bad")) = HashErr.invalidRef (lit ("bad")) ∧
    normalizeHashRef (toBase 10 12 ++ ':' :: lit ("fF"))
      = .ok (toBase 10 12 ++ ':' :: (lit ("fF")).map lowerCh) ∧
    normalizeHashRef (toBase 10 3 ++ (':' :: (lit ("AbC3") ++ ('|' :: lit ("tail")))))
      = .ok (toBase 10 3 ++ ':' :: (lit ("AbC3")).map lowerCh) ∧
    normalizeHashRef
        (lit ("#HL") ++ (lit (" ") ++ (toBase 10 7 ++ (':' :: (lit ("AbC3") ++ ('|' :: lit ("content")))))))
      = .ok (toBase 10 7 ++ ':' :: (lit ("AbC3")).map lowerCh) :=
  ⟨C8_normalize_forms.1 (lit ("bad")) (HashErr.invalidRef (lit ("bad"))) (by decide),
    C8_normalize_forms.2.1 12 (lit ("fF")) (by decide) (by decide) (by decide) (by decide),
    C8_normalize_forms.2.2.1 3 (lit ("AbC3")) (lit ("tail"))
      (by decide) (by decide) (by decide) (by decide) (by decide),
    C8_normalize_forms.2.2.2 (lit ("#HL")) (lit (" ")) 7 (lit ("AbC3")) (lit ("content"))
      (by decide) (by decide) (by decide) (by decide) (by decide)
      (by decide) (by decide) (by decide) (by decide)⟩

end Hashline
